import Mathlib

/-!
Shallow embedding of the community-detection core in `leiden_algt.py`
(Louvain- and Leiden-style modularity optimisation on weighted undirected
graphs), together with proofs about it.

Modelling choices, mirroring the Python source:
* a `networkx` graph is a list of node identifiers plus a list of
  undirected weighted edges, each stored once (self-loops allowed and
  stored once, as networkx does);
* edge weights and modularity values are rationals, standing for Python
  floats computed exactly;
* a Python dict is an insertion-ordered association list; dict update
  keeps the position of the key;
* `random.shuffle` draws from the process-global generator, so the node
  visitation order of each sweep is threaded in as an explicit oracle
  (one list of nodes per sweep);
* Python set iteration is modelled by `List.dedup`;
* the unbounded `while` loops are given explicit fuel; a `none` result
  means the fuel ran out before the loop's own exit condition fired.

Failure behaviour: `calcular_modularidade` returns `none` exactly when
the Python code would raise (a weighted-degree query for a node absent
from the graph); partition lookups that would raise `KeyError` in
Python are modelled by skip/default branches that are unreachable under
the well-formedness hypotheses of the theorems below.
-/

/-- An undirected weighted graph: node identifiers plus edges
`(u, v, weight)`, each undirected edge stored once. -/
structure Grafo where
  nodes : List ℕ
  edges : List (ℕ × ℕ × ℚ)
deriving Repr, DecidableEq

/-- A partition: an insertion-ordered association list from node to
community identifier, modelling a Python dict. -/
abbrev Particao := List (ℕ × ℕ)

/-- Keys of a partition (the nodes it maps). -/
def pkeys (P : Particao) : List ℕ := P.map (·.1)

/-- Values of a partition (the community ids, with multiplicity). -/
def pvalues (P : Particao) : List ℕ := P.map (·.2)

/-- First-match lookup in a partition, `P[k]` in Python (`none` models
`KeyError`). -/
def plookup : Particao → ℕ → Option ℕ
  | [], _ => none
  | e :: es, k => if e.1 = k then some e.2 else plookup es k

/-- Lookup with a default, used where the Python code can only reach the
key-present case. -/
def pget (P : Particao) (k : ℕ) : ℕ := (plookup P k).getD 0

/-- Dict update `P[k] = v`: replaces the value in place, keeping key
order; a no-op when the key is absent (the Python code only assigns to
keys that are present). -/
def pupdate (P : Particao) (k v : ℕ) : Particao :=
  P.map (fun e => if e.1 = k then (k, v) else e)

/-- The member nodes of community `c`, in insertion order:
`[no for no, cid in P.items() if cid == c]`. -/
def membros (P : Particao) (c : ℕ) : List ℕ :=
  (P.filter (fun e => e.2 = c)).map (·.1)

/-- `G.size(weight='weight')`: total edge weight, self-loops counted
once. -/
def peso_total (G : Grafo) : ℚ := (G.edges.map (fun e => e.2.2)).sum

/-- `G.degree(n, weight='weight')`: weighted degree, a self-loop
contributing its weight twice. -/
def grau (G : Grafo) (n : ℕ) : ℚ :=
  (G.edges.map (fun e =>
    (if e.1 = n then e.2.2 else 0) + (if e.2.1 = n then e.2.2 else 0))).sum

/-- `G.adj[n].items()`: the weighted adjacency of `n`; a self-loop
appears once, as its own neighbour. -/
def adjacencia (G : Grafo) (n : ℕ) : List (ℕ × ℚ) :=
  G.edges.filterMap (fun e =>
    if e.1 = n then some (e.2.1, e.2.2)
    else if e.2.1 = n then some (e.1, e.2.2) else none)

/-- `H.neighbors(n)`: the neighbours of `n`. -/
def vizinhos (G : Grafo) (n : ℕ) : List ℕ := (adjacencia G n).map (·.1)

/-- `G.subgraph(S).size(weight='weight')`: total weight of the edges
with both endpoints in `S`. -/
def peso_interno (G : Grafo) (S : List ℕ) : ℚ :=
  ((G.edges.filter (fun e => e.1 ∈ S ∧ e.2.1 ∈ S)).map (fun e => e.2.2)).sum

/-- `G.subgraph(S)`: the induced subgraph on the nodes of `S`. -/
def subgrafo (G : Grafo) (S : List ℕ) : Grafo :=
  ⟨G.nodes.filter (· ∈ S), G.edges.filter (fun e => e.1 ∈ S ∧ e.2.1 ∈ S)⟩

/-- Sum of the weighted degrees of the nodes of `S`. -/
def soma_graus (G : Grafo) (S : List ℕ) : ℚ := (S.map (grau G)).sum

/-- Modularity contribution of one community with member list `S`:
`Σin/m − (Σdeg/2m)²`. -/
def contribuicao (G : Grafo) (S : List ℕ) : ℚ :=
  peso_interno G S / peso_total G - (soma_graus G S / (2 * peso_total G)) ^ 2

/-- One step of `agrupar_por_comunidade`: add node `n` to the group of
community `c`, creating the group at the end when absent (defaultdict
insertion order). -/
def inserir_grupo : List (ℕ × List ℕ) → ℕ → ℕ → List (ℕ × List ℕ)
  | [], c, n => [(c, [n])]
  | g :: gs, c, n =>
    if g.1 = c then (g.1, g.2 ++ [n]) :: gs else g :: inserir_grupo gs c n

/-- `agrupar_por_comunidade(particao)`: groups the nodes by community
id, in dict insertion order. -/
def agrupar_por_comunidade (P : Particao) : List (ℕ × List ℕ) :=
  P.foldl (fun acc e => inserir_grupo acc e.2 e.1) []

/-- `calcular_modularidade(G, particao)`.  Returns `some 0` when the
total weight is zero (before any node is queried); otherwise sums the
per-community contributions.  `none` models the `networkx` error raised
by a degree query for a node outside the graph. -/
def calcular_modularidade (G : Grafo) (P : Particao) : Option ℚ :=
  if peso_total G = 0 then some 0
  else if (pkeys P).all (fun n => n ∈ G.nodes) then
    some (((agrupar_por_comunidade P).map (fun g => contribuicao G g.2)).sum)
  else none

/-- `calc_propriedades(G, nodes)`: the pair (sum of weighted degrees,
internal edge weight) of a community. -/
def calc_propriedades (G : Grafo) (S : List ℕ) : ℚ × ℚ :=
  (soma_graus G S, peso_interno G S)

/-- `calc_delta_q(G, particao, no_a_mover, id_comunidade_alvo)`: the
incremental modularity evaluator, ported line by line from the source. -/
def calc_delta_q (G : Grafo) (P : Particao) (no_a_mover id_alvo : ℕ) : ℚ :=
  let m := peso_total G
  if m = 0 then 0
  else
    let id_atual := pget P no_a_mover
    if id_atual = id_alvo then 0
    else
      let nos_em_alvo := membros P id_alvo
      let nos_em_atual := membros P id_atual
      let pa := calc_propriedades G nos_em_atual
      let pb := calc_propriedades G nos_em_alvo
      let contrib_antes := (pa.2 / m - (pa.1 / (2 * m)) ^ 2)
        + (pb.2 / m - (pb.1 / (2 * m)) ^ 2)
      let no_k := grau G no_a_mover
      let no_k_para_atual :=
        (((adjacencia G no_a_mover).filter
          (fun v => pget P v.1 = id_atual)).map (·.2)).sum
      let no_k_para_alvo :=
        (((adjacencia G no_a_mover).filter
          (fun v => pget P v.1 = id_alvo)).map (·.2)).sum
      let novo_grau_comun := pa.1 - no_k
      let novo_peso_comun := pa.2 - no_k_para_atual
      let novo_grau_alvo := pb.1 + no_k
      let novo_peso_alvo := pb.2 + no_k_para_alvo
      let contrib_depois := (novo_peso_comun / m - (novo_grau_comun / (2 * m)) ^ 2)
        + (novo_peso_alvo / m - (novo_grau_alvo / (2 * m)) ^ 2)
      contrib_depois - contrib_antes

/-- Inner loop of one node visit: fold over the neighbour communities,
keeping the first community whose gain strictly beats the running best
(initialised to the current community with gain `0.0`). -/
def melhor_movimento (G : Grafo) (P : Particao) (no : ℕ) (cs : List ℕ)
    (id_atual : ℕ) : ℕ × ℚ :=
  cs.foldl (fun best c =>
    if id_atual ≠ c then
      let dq := calc_delta_q G P no c
      if best.2 < dq then (c, dq) else best
    else best) (id_atual, 0)

/-- The fold step of `melhor_movimento`, as a named function (used to
state fold lemmas about the inner loop). -/
def mm_passo (G : Grafo) (P : Particao) (no id_atual : ℕ)
    (best : ℕ × ℚ) (c : ℕ) : ℕ × ℚ :=
  if id_atual ≠ c then
    let dq := calc_delta_q G P no c
    if best.2 < dq then (c, dq) else best
  else best

/-- One node visit of the local-moving sweep.  The state is the current
partition and the sweep's `melhorou` flag.  A node absent from the
partition is skipped (Python would raise; unreachable when the sweep
visits `H`'s nodes and the partition is total over them). -/
def passo_varredura (H G : Grafo) (st : Particao × Bool) (no : ℕ) :
    Particao × Bool :=
  match plookup st.1 no with
  | none => st
  | some id_atual =>
    let cs := ((vizinhos H no).filterMap (fun v => plookup st.1 v)).dedup
    let mv := melhor_movimento G st.1 no cs id_atual
    if 0 < mv.2 then (pupdate st.1 no mv.1, true) else st

/-- One full sweep of the local-moving loop, visiting the nodes in the
order `L` (the shuffled node list), starting with `melhorou = false`. -/
def varredura (H G : Grafo) (L : List ℕ) (P : Particao) : Particao × Bool :=
  L.foldl (passo_varredura H G) (P, false)

/-- `encontrar_movimentacao_local(H, G_completo, particao_inicial)`:
repeat sweeps until one makes no move.  `ordens i` is the shuffled node
order of sweep `i` (the draw from the process-global generator); `fuel`
bounds the number of sweeps, `none` meaning the bound was hit first. -/
def encontrar_movimentacao_local (fuel : ℕ) (ordens : ℕ → List ℕ)
    (H G : Grafo) (P : Particao) : Option Particao :=
  match fuel with
  | 0 => none
  | fuel + 1 =>
    let r := varredura H G (ordens 0) P
    if r.2 then
      encontrar_movimentacao_local fuel (fun i => ordens (i + 1)) H G r.1
    else some r.1

/-- The dissolved trial partition of the refinement phase: each member
of the community is moved into its own singleton community named by the
node itself. -/
def dissolver (P : Particao) (nos : List ℕ) : Particao :=
  nos.foldl (fun acc no => pupdate acc no no) P

/-- One iteration of the final loop of `refinar_particao` over a
member-and-local-id pair `e`.  State: (partition being rebuilt,
fresh-id counter, the community-local `mapa_id` translation table).
When the community was split, the node's local community id is
translated through `mapa_id`, minting a fresh global id on first
sight; otherwise the node keeps the original community id. -/
def refina_passo (dividida : Bool) (id_c : ℕ)
    (st : Particao × ℕ × List (ℕ × ℕ)) (e : ℕ × ℕ) :
    Particao × ℕ × List (ℕ × ℕ) :=
  if dividida then
    match plookup st.2.2 e.2 with
    | some g => (pupdate st.1 e.1 g, st.2.1, st.2.2)
    | none =>
      (pupdate st.1 e.1 st.2.1, st.2.1 + 1, st.2.2 ++ [(e.2, st.2.1)])
  else (pupdate st.1 e.1 id_c, st.2.1, st.2.2)

/-- Refinement of one community `id_c`: isolate its members, dissolve
them, re-run local moving on the induced subgraph against the full
reference graph, then either keep the original id (still cohesive) or
mint fresh ids from the counter for each sub-community.  State:
(partition being rebuilt, fresh-id counter). -/
def refinar_comunidade (fuelLM : ℕ) (ordens : ℕ → List ℕ) (G : Grafo)
    (P : Particao) (id_c : ℕ) (finalP : Particao) (cont : ℕ) :
    Option (Particao × ℕ) :=
  let nos := membros P id_c
  if nos.length ≤ 1 then some (finalP, cont)
  else
    match encontrar_movimentacao_local fuelLM ordens (subgrafo G nos) G
        (dissolver P nos) with
    | none => none
    | some res =>
      let locais : List (ℕ × ℕ) := nos.map (fun no => (no, pget res no))
      let dividida : Bool := decide (1 < ((locais.map (·.2)).dedup).length)
      let r := locais.foldl (refina_passo dividida id_c)
        (finalP, cont, ([] : List (ℕ × ℕ)))
      some (r.1, r.2.1)

/-- Iteration of `refinar_particao` over the distinct community ids, one
call-oracle per community. -/
def refinar_loop (fuelLM : ℕ) (G : Grafo) (P : Particao) :
    List ℕ → (ℕ → ℕ → List ℕ) → Particao → ℕ → Option (Particao × ℕ)
  | [], _, finalP, cont => some (finalP, cont)
  | c :: ids, ordens, finalP, cont =>
    match refinar_comunidade fuelLM (ordens 0) G P c finalP cont with
    | none => none
    | some (finalP', cont') =>
      refinar_loop fuelLM G P ids (fun j => ordens (j + 1)) finalP' cont'

/-- `refinar_particao(G, particao_alvo)`: the fresh-id counter starts
one above the maximum community id present (0 for an empty partition),
and every community is inspected in turn. -/
def refinar_particao (fuelLM : ℕ) (ordens : ℕ → ℕ → List ℕ) (G : Grafo)
    (P : Particao) : Option Particao :=
  let novo_id := if P = [] then 0 else (pvalues P).foldr max 0 + 1
  match refinar_loop fuelLM G P ((pvalues P).dedup) ordens P novo_id with
  | none => none
  | some (finalP, _) => some finalP

/-- Accumulate weight `w` onto the undirected aggregated edge between
`a` and `b`, updating the stored edge in place or appending a new one
(`G_agr.has_edge` / `add_edge`). -/
def acumular_aresta : List (ℕ × ℕ × ℚ) → ℕ → ℕ → ℚ → List (ℕ × ℕ × ℚ)
  | [], a, b, w => [(a, b, w)]
  | e :: es, a, b, w =>
    if (e.1 = a ∧ e.2.1 = b) ∨ (e.1 = b ∧ e.2.1 = a) then
      (e.1, e.2.1, e.2.2 + w) :: es
    else e :: acumular_aresta es a b w

/-- `agrupar_grafo(G, particao)`: one super-node per distinct community
id; every edge's weight is accumulated onto the edge between the
communities of its endpoints (a self-loop when they coincide). -/
def agrupar_grafo (G : Grafo) (P : Particao) : Grafo :=
  ⟨(pvalues P).dedup,
   G.edges.foldl (fun acc e =>
     acumular_aresta acc (pget P e.1) (pget P e.2.1) e.2.2) []⟩

/-- The back-mapping step of both multilevel loops: compose the standing
original-node-to-level-id mapping with the level partition, silently
omitting any original node whose tracked id is absent from the level
partition (the `if id_comunidade in particao` guard in the source). -/
def mapear_particao (mapa particao : Particao) : Particao :=
  mapa.filterMap (fun e => (plookup particao e.2).map (fun c => (e.1, c)))

/-- The all-singleton starting partition on a graph. -/
def particao_singleton (G : Grafo) : Particao := G.nodes.map (fun n => (n, n))

/-- The multilevel loop of `leiden(G_orig)`.  State: working graph,
standing level mapping, best partition, best modularity, history.
`ordens ℓ 0` is the sweep oracle of level `ℓ`'s main local-moving call
and `ordens ℓ (j+1)` that of its refinement call for the `j`-th
community.  Fuel bounds the number of levels. -/
def leiden_loop (fuelLM : ℕ) (G_orig : Grafo) :
    ℕ → (ℕ → ℕ → ℕ → List ℕ) → Grafo → Particao → Particao → ℚ →
    List ℚ → Option (Particao × List ℚ)
  | 0, _, _, _, _, _, _ => none
  | fuel + 1, ordens, G, mapa, melhor, melhorQ, hist =>
    match encontrar_movimentacao_local fuelLM (ordens 0 0) G G
        (particao_singleton G) with
    | none => none
    | some p1 =>
      match refinar_particao fuelLM (fun j => ordens 0 (j + 1)) G p1 with
      | none => none
      | some p2 =>
        let mapped := mapear_particao mapa p2
        match calcular_modularidade G_orig mapped with
        | none => none
        | some q =>
          if q ≤ melhorQ then some (melhor, hist)
          else
            let G_novo := agrupar_grafo G p2
            if G_novo.nodes.length = G.nodes.length then
              some (mapped, hist ++ [q])
            else
              leiden_loop fuelLM G_orig fuel (fun l => ordens (l + 1))
                G_novo mapped mapped q (hist ++ [q])

/-- `leiden(G_orig)`: start from the identity mapping, the all-singleton
best partition and best modularity `-1.0`. -/
def leiden (fuelOuter fuelLM : ℕ) (ordens : ℕ → ℕ → ℕ → List ℕ)
    (G_orig : Grafo) : Option (Particao × List ℚ) :=
  leiden_loop fuelLM G_orig fuelOuter ordens G_orig
    (particao_singleton G_orig) (particao_singleton G_orig) (-1) []

/-- The multilevel loop of `louvain(G_orig)`: identical to
`leiden_loop` but with no refinement phase.  `ordens ℓ` is the sweep
oracle of level `ℓ`'s local-moving call. -/
def louvain_loop (fuelLM : ℕ) (G_orig : Grafo) :
    ℕ → (ℕ → ℕ → List ℕ) → Grafo → Particao → Particao → ℚ →
    List ℚ → Option (Particao × List ℚ)
  | 0, _, _, _, _, _, _ => none
  | fuel + 1, ordens, G, mapa, melhor, melhorQ, hist =>
    match encontrar_movimentacao_local fuelLM (ordens 0) G G
        (particao_singleton G) with
    | none => none
    | some p1 =>
      let mapped := mapear_particao mapa p1
      match calcular_modularidade G_orig mapped with
      | none => none
      | some q =>
        if q ≤ melhorQ then some (melhor, hist)
        else
          let G_novo := agrupar_grafo G p1
          if G_novo.nodes.length = G.nodes.length then
            some (mapped, hist ++ [q])
          else
            louvain_loop fuelLM G_orig fuel (fun l => ordens (l + 1))
              G_novo mapped mapped q (hist ++ [q])

/-- `louvain(G_orig)`. -/
def louvain (fuelOuter fuelLM : ℕ) (ordens : ℕ → ℕ → List ℕ)
    (G_orig : Grafo) : Option (Particao × List ℚ) :=
  louvain_loop fuelLM G_orig fuelOuter ordens G_orig
    (particao_singleton G_orig) (particao_singleton G_orig) (-1) []

/-- Concrete graph with a self-loop: nodes 0, 1; a self-loop of weight 1
on node 0 and an edge of weight 1 between 0 and 1. -/
def exemplo_laco : Grafo := ⟨[0, 1], [(0, 0, 1), (0, 1, 1)]⟩

/-- Each node of `exemplo_laco` in its own community. -/
def exemplo_laco_particao : Particao := [(0, 0), (1, 1)]

/-- Concrete graph with a single edge of weight 1 between nodes 0 and 1. -/
def exemplo_aresta : Grafo := ⟨[0, 1], [(0, 1, 1)]⟩

/-- Each node of `exemplo_aresta` in its own community. -/
def exemplo_aresta_particao : Particao := [(0, 0), (1, 1)]

/-- Concrete graph made of two disjoint edges of weight 1:
0 — 1 and 2 — 3. -/
def exemplo_duplo : Grafo := ⟨[0, 1, 2, 3], [(0, 1, 1), (2, 3, 1)]⟩

/-- Partition of `exemplo_duplo` into its two natural communities. -/
def exemplo_duplo_particao : Particao := [(0, 0), (1, 0), (2, 1), (3, 1)]

/-- Group list of an association list (the community ids of a grouping). -/
def gkeys (gs : List (ℕ × List ℕ)) : List ℕ := gs.map (·.1)

/-- Verification invariant for the refinement phase, relating the
partition `F` being rebuilt to the input partition `P` with maximal
community id `M` and fresh-id counter `cont`: domains agree, every node
holds either its original id or a fresh id in `[M+1, cont)`, and nodes
from different original communities never share a rebuilt id. -/
abbrev inv_refina (P : Particao) (M : ℕ) (F : Particao) (cont : ℕ) : Prop :=
  pkeys F = pkeys P ∧
  (∀ n c, plookup P n = some c →
    ∃ v, plookup F n = some v ∧ (v = c ∨ (M < v ∧ v < cont))) ∧
  (∀ na nb ca cb, plookup P na = some ca → plookup P nb = some cb →
    ca ≠ cb → plookup F na ≠ plookup F nb)

/-- Verification invariant inside the rebuild loop of one community
`id_c`: `cont0` is the counter value at entry, `mapa` the community's
local translation table; fresh ids minted for this community lie in
`[cont0, cont)` and are given only to members of `id_c`. -/
abbrev inv_refina_loc (P : Particao) (M id_c cont0 : ℕ) (F : Particao)
    (cont : ℕ) (mapa : List (ℕ × ℕ)) : Prop :=
  pkeys F = pkeys P ∧ cont0 ≤ cont ∧
  (∀ g ∈ pvalues mapa, cont0 ≤ g ∧ g < cont) ∧
  (∀ n c, plookup P n = some c →
    ∃ v, plookup F n = some v ∧
      (v = c ∨ (M < v ∧ v < cont0) ∨ (cont0 ≤ v ∧ v < cont ∧ c = id_c))) ∧
  (∀ na nb ca cb, plookup P na = some ca → plookup P nb = some cb →
    ca ≠ cb → plookup F na ≠ plookup F nb)

/-- Global modularity of a partition as a plain rational: the sum of
the per-community contributions over the distinct community ids (the
value `calcular_modularidade` computes when it does not fail).  Used as
the potential function of the greedy local-moving loop. -/
def Qval (G : Grafo) (P : Particao) : ℚ :=
  ((pvalues P).dedup.map (fun c => contribuicao G (membros P c))).sum

/-- Total weight of the self-loops at a node. -/
def laco (G : Grafo) (no : ℕ) : ℚ :=
  ((G.edges.filter (fun e => e.1 = no ∧ e.2.1 = no)).map (fun e => e.2.2)).sum

/-- Sum of the weights of the edges from `no` into community `c`
(`no_k_para_*` in `calc_delta_q`; a self-loop counted once, towards the
community of `no` itself). -/
def kpara (G : Grafo) (P : Particao) (no c : ℕ) : ℚ :=
  (((adjacencia G no).filter (fun v => pget P v.1 = c)).map (·.2)).sum

/-- All lists of a given length over a finite set of values: the
(finite) space of community-assignment sequences reachable by local
moving, used to bound the number of improving sweeps. -/
def listas_todas : ℕ → Finset ℕ → Finset (List ℕ)
  | 0, _ => {[]}
  | n + 1, V => V.biUnion (fun v => (listas_todas n V).image (fun l => v :: l))

/-- Termination measure of the local-moving loop: the number of
assignments over key list `K` and value set `V` whose modularity
strictly exceeds `q`.  Every improving sweep strictly decreases it. -/
def medida_lm (G : Grafo) (K : List ℕ) (V : Finset ℕ) (q : ℚ) : ℕ :=
  ((listas_todas K.length V).filter (fun vl => q < Qval G (K.zip vl))).card

/-- Well-formedness of a graph as the algorithm receives it: no
duplicate node identifiers, every edge endpoint a node, and
non-negative edge weights. -/
def GrafoBemFormado (G : Grafo) : Prop :=
  G.nodes.Nodup ∧ (∀ e ∈ G.edges, e.1 ∈ G.nodes ∧ e.2.1 ∈ G.nodes) ∧
    (∀ e ∈ G.edges, 0 ≤ e.2.2)

/-! ## Basic lemmas about partitions and graphs -/

theorem pkeys_pupdate (P : Particao) (k v : ℕ) :
    pkeys (pupdate P k v) = pkeys P := by
  induction P with
  | nil => rfl
  | cons e es ih =>
    simp only [pupdate, pkeys, List.map_cons] at *
    by_cases h : e.1 = k
    · simp [h, ih]
    · simp [h, ih]

theorem plookup_isSome_of_mem {P : Particao} {k : ℕ} (h : k ∈ pkeys P) :
    (plookup P k).isSome := by
  induction P with
  | nil => simp [pkeys] at h
  | cons e es ih =>
    simp only [pkeys, List.map_cons, List.mem_cons] at h
    by_cases he : e.1 = k
    · simp [plookup, he]
    · rcases h with h | h
      · exact absurd h.symm he
      · simpa [plookup, he] using ih h

theorem mem_pkeys_of_plookup {P : Particao} {k v : ℕ}
    (h : plookup P k = some v) : k ∈ pkeys P := by
  induction P with
  | nil => simp [plookup] at h
  | cons e es ih =>
    by_cases he : e.1 = k
    · simp [pkeys, he]
    · simp only [plookup, he, if_false] at h
      simp only [pkeys, List.map_cons, List.mem_cons]
      exact Or.inr (by simpa [pkeys] using ih h)

theorem plookup_mem_pvalues {P : Particao} {k v : ℕ}
    (h : plookup P k = some v) : v ∈ pvalues P := by
  induction P with
  | nil => simp [plookup] at h
  | cons e es ih =>
    by_cases he : e.1 = k
    · simp only [plookup, he, if_true, Option.some_inj] at h
      simp [pvalues, h]
    · simp only [plookup, he, if_false] at h
      simp only [pvalues, List.map_cons, List.mem_cons]
      exact Or.inr (by simpa [pvalues] using ih h)

theorem pkeys_length (P : Particao) : (pkeys P).length = P.length := by
  simp [pkeys]

theorem pvalues_length (P : Particao) : (pvalues P).length = P.length := by
  simp [pvalues]

section ConcreteEvaluation

/- Batteries marks the rational operations irreducible, which blocks
`decide` on concrete modularity values; re-enable plain unfolding for
the theorems below (all proofs still go through the kernel). -/
attribute [local semireducible] Rat.add Rat.mul Rat.inv Rat.sub

/-! ## C9: zero-edge-weight graphs have modularity `0.0`, not an error -/

/-- C9.  For every graph `G` with zero total edge weight and every
partition `P`, `calcular_modularidade(G, P)` returns `0.0`; this is a
defined result, not an error. -/
theorem c9_modularidade_peso_zero (G : Grafo) (P : Particao)
    (h : peso_total G = 0) : calcular_modularidade G P = some 0 := by
  simp [calcular_modularidade, h]

/-- Witness for C9: an empty graph with a partition mentioning a node
the graph does not even contain still yields `some 0`. -/
theorem c9_witness :
    peso_total ⟨[], []⟩ = 0 ∧
      calcular_modularidade ⟨[], []⟩ [(7, 1)] = some 0 :=
  ⟨by decide, c9_modularidade_peso_zero ⟨[], []⟩ [(7, 1)] (by decide)⟩

/-! ## C1: the incremental evaluator disagrees with the global
modularity difference on a self-loop -/

/-- C1 (failing input).  On `exemplo_laco` (node 0 carries a self-loop),
moving node 0 into node 1's community changes the recomputed global
modularity by `1/8`, but `calc_delta_q` predicts `-3/8`: the difference
is `1/2` (the self-loop weight divided by `m`), far beyond the `1e-9`
tolerance.  The incremental evaluator omits the moved node's self-loop
weight from the target community's internal weight. -/
theorem c1_delta_q_laco_divergencia :
    calcular_modularidade exemplo_laco exemplo_laco_particao = some (-1/8) ∧
    calcular_modularidade exemplo_laco (pupdate exemplo_laco_particao 0 1) =
      some 0 ∧
    calc_delta_q exemplo_laco exemplo_laco_particao 0 1 = -3/8 ∧
    (1 : ℚ) / 1000000000 <
      |(0 - (-1/8 : ℚ)) - calc_delta_q exemplo_laco exemplo_laco_particao 0 1| := by
  refine ⟨by decide, by decide, by decide, by decide⟩

/-! ## C2: the back-mapping step silently drops unmapped nodes -/

/-- C2 (failing input).  `mapear_particao` is the back-mapping step used
by both `leiden` and `louvain`.  With the level mapping tracking node 1
as level-identifier 5 and a freshly computed level partition whose
domain does not contain 5, the result silently omits node 1 — it is the
empty partition, and no failure of any kind is raised (the function is
total), contradicting the specified `InvalidPartitionMapping` failure. -/
theorem c2_mapeamento_omite_no :
    mapear_particao [(1, 5)] [(6, 7)] = [] ∧
      plookup (mapear_particao [(1, 5)] [(6, 7)]) 1 = none := by
  exact ⟨by decide, by decide⟩

/-! ## C6: aggregation conserves total edge weight -/

theorem sum_acumular_aresta (es : List (ℕ × ℕ × ℚ)) (a b : ℕ) (w : ℚ) :
    ((acumular_aresta es a b w).map (fun e => e.2.2)).sum =
      (es.map (fun e => e.2.2)).sum + w := by
  induction es with
  | nil => simp [acumular_aresta]
  | cons e es ih =>
    by_cases h : (e.1 = a ∧ e.2.1 = b) ∨ (e.1 = b ∧ e.2.1 = a)
    · simp only [acumular_aresta, if_pos h, List.map_cons, List.sum_cons]
      ring
    · simp only [acumular_aresta, if_neg h, List.map_cons, List.sum_cons, ih]
      ring

theorem sum_foldl_acumular (P : Particao) (l : List (ℕ × ℕ × ℚ))
    (acc : List (ℕ × ℕ × ℚ)) :
    ((l.foldl (fun acc e =>
        acumular_aresta acc (pget P e.1) (pget P e.2.1) e.2.2) acc).map
      (fun e => e.2.2)).sum =
      (acc.map (fun e => e.2.2)).sum + (l.map (fun e => e.2.2)).sum := by
  induction l generalizing acc with
  | nil => simp
  | cons e l ih =>
    simp only [List.foldl_cons, List.map_cons, List.sum_cons, ih,
      sum_acumular_aresta]
    ring

/-- C6.  For every graph `G` and every partition `P` total over `G`'s
nodes, the total edge weight of the aggregated graph (self-loops counted
once, as `peso_total` counts them) equals the total edge weight of `G`
exactly. -/
theorem c6_agrupar_conserva_peso (G : Grafo) (P : Particao)
    (_htotal : ∀ n ∈ G.nodes, n ∈ pkeys P) :
    peso_total (agrupar_grafo G P) = peso_total G := by
  show ((G.edges.foldl (fun acc e =>
      acumular_aresta acc (pget P e.1) (pget P e.2.1) e.2.2) []).map
    (fun e => e.2.2)).sum = peso_total G
  rw [sum_foldl_acumular]
  simp [peso_total]

/-- Witness for C6 on the two-disjoint-edges graph with its natural
two-community partition: both total weights are `2`. -/
theorem c6_witness :
    (∀ n ∈ exemplo_duplo.nodes, n ∈ pkeys exemplo_duplo_particao) ∧
      peso_total (agrupar_grafo exemplo_duplo exemplo_duplo_particao) =
        peso_total exemplo_duplo :=
  ⟨by decide,
   c6_agrupar_conserva_peso exemplo_duplo exemplo_duplo_particao (by decide)⟩

/-! ## C8: randomness is the ambient global generator, not an explicit
seeded argument -/

/-- C8 (counterexample).  The Python `encontrar_movimentacao_local`
signature carries no generator or seed: its visitation order comes from
the process-global `random.shuffle`, modelled here as the explicit
oracle argument.  Two executions on the *same* candidate graph,
reference graph and starting partition, differing only in the ambient
draw (visiting the single edge's endpoints in the two possible orders),
converge to different output partitions, so the declared call inputs do
not determine the result. -/
theorem c8_ordem_ambiente_muda_resultado :
    encontrar_movimentacao_local 3 (fun _ => [0, 1]) exemplo_aresta
        exemplo_aresta exemplo_aresta_particao ≠
      encontrar_movimentacao_local 3 (fun _ => [1, 0]) exemplo_aresta
        exemplo_aresta exemplo_aresta_particao := by
  decide

/-- C8 (amended).  The only randomness in `encontrar_movimentacao_local`
is the per-sweep visitation order drawn from the process-global
generator; with that order stream made an explicit input, the output is
a deterministic function of candidate graph, reference graph, starting
partition and stream — equal streams give equal partitions — while
distinct streams can give distinct partitions. -/
theorem c8_determinismo_dado_fluxo :
    (∀ (f : ℕ) (H G : Grafo) (P : Particao) (o o' : ℕ → List ℕ),
        (∀ i, o i = o' i) →
        encontrar_movimentacao_local f o H G P =
          encontrar_movimentacao_local f o' H G P) ∧
      encontrar_movimentacao_local 3 (fun _ => [0, 1]) exemplo_aresta
          exemplo_aresta exemplo_aresta_particao = some [(0, 1), (1, 1)] ∧
      encontrar_movimentacao_local 3 (fun _ => [1, 0]) exemplo_aresta
          exemplo_aresta exemplo_aresta_particao = some [(0, 0), (1, 0)] := by
  refine ⟨fun f H G P o o' h => ?_, by decide, by decide⟩
  have ho : o = o' := funext h
  rw [ho]

/-- Witness for C8: the determinism half applied to two syntactically
different but pointwise-equal order streams. -/
theorem c8_witness :
    encontrar_movimentacao_local 3 (fun _ => [0, 1]) exemplo_aresta
        exemplo_aresta exemplo_aresta_particao =
      encontrar_movimentacao_local 3 (fun _ => [0 + 0, 1]) exemplo_aresta
        exemplo_aresta exemplo_aresta_particao :=
  c8_determinismo_dado_fluxo.1 3 exemplo_aresta exemplo_aresta
    exemplo_aresta_particao _ _ (fun _ => by norm_num)

/-! ## C10: modularity over a partition covering only part of the graph -/

theorem pvalues_cons (e : ℕ × ℕ) (es : Particao) :
    pvalues (e :: es) = e.2 :: pvalues es := rfl

theorem membros_cons (e : ℕ × ℕ) (es : Particao) (c : ℕ) :
    membros (e :: es) c =
      (if e.2 = c then [e.1] else []) ++ membros es c := by
  by_cases h : e.2 = c <;> simp [membros, List.filter_cons, h]

theorem gkeys_cons (g : ℕ × List ℕ) (gs : List (ℕ × List ℕ)) :
    gkeys (g :: gs) = g.1 :: gkeys gs := rfl

theorem mem_gkeys_of_mem {gs : List (ℕ × List ℕ)} {p : ℕ × List ℕ}
    (hp : p ∈ gs) : p.1 ∈ gkeys gs := List.mem_map_of_mem (·.1) hp

theorem membros_append (Q : Particao) (e : ℕ × ℕ) (c : ℕ) :
    membros (Q ++ [e]) c = membros Q c ++ (if e.2 = c then [e.1] else []) := by
  by_cases h : e.2 = c <;> simp [membros, List.filter_append, h]

theorem pvalues_append (Q : Particao) (e : ℕ × ℕ) :
    pvalues (Q ++ [e]) = pvalues Q ++ [e.2] := by
  simp [pvalues]

theorem membros_eq_nil_of_not_mem {Q : Particao} {c : ℕ}
    (h : c ∉ pvalues Q) : membros Q c = [] := by
  induction Q with
  | nil => rfl
  | cons e es ih =>
    rw [pvalues_cons] at h
    have he : ¬(e.2 = c) := by
      intro hc
      exact h (by rw [hc]; exact List.mem_cons_self _ _)
    rw [membros_cons, if_neg he, List.nil_append]
    exact ih (fun hc => h (List.mem_cons_of_mem _ hc))

theorem mem_gkeys_inserir {gs : List (ℕ × List ℕ)} {c n c' : ℕ} :
    c' ∈ gkeys (inserir_grupo gs c n) ↔ c' ∈ gkeys gs ∨ c' = c := by
  induction gs with
  | nil => simp [inserir_grupo, gkeys]
  | cons g gs ih =>
    by_cases h : g.1 = c
    · simp only [inserir_grupo, if_pos h, gkeys_cons, List.mem_cons]
      constructor
      · rintro (h1 | h1)
        · exact Or.inl (Or.inl h1)
        · exact Or.inl (Or.inr h1)
      · rintro ((h1 | h1) | h1)
        · exact Or.inl h1
        · exact Or.inr h1
        · exact Or.inl (h1.trans h.symm)
    · simp only [inserir_grupo, if_neg h, gkeys_cons, List.mem_cons, ih]
      tauto

theorem gkeys_inserir_of_mem {gs : List (ℕ × List ℕ)} {c : ℕ} (n : ℕ)
    (h : c ∈ gkeys gs) : gkeys (inserir_grupo gs c n) = gkeys gs := by
  induction gs with
  | nil => exact absurd h (List.not_mem_nil c)
  | cons g gs ih =>
    by_cases hg : g.1 = c
    · simp only [inserir_grupo, if_pos hg, gkeys_cons]
    · rw [gkeys_cons, List.mem_cons] at h
      have h' : c ∈ gkeys gs := by
        rcases h with h1 | h1
        · exact absurd h1.symm hg
        · exact h1
      simp only [inserir_grupo, if_neg hg, gkeys_cons, ih h']

theorem gkeys_inserir_of_not_mem {gs : List (ℕ × List ℕ)} {c : ℕ} (n : ℕ)
    (h : c ∉ gkeys gs) : gkeys (inserir_grupo gs c n) = gkeys gs ++ [c] := by
  induction gs with
  | nil => simp [inserir_grupo, gkeys]
  | cons g gs ih =>
    rw [gkeys_cons] at h
    have hg : ¬(g.1 = c) := fun hc => h (by rw [hc]; exact List.mem_cons_self _ _)
    have h' : c ∉ gkeys gs := fun hc => h (List.mem_cons_of_mem _ hc)
    simp only [inserir_grupo, if_neg hg, gkeys_cons, ih h', List.cons_append]

theorem nodup_gkeys_inserir {gs : List (ℕ × List ℕ)} {c : ℕ} (n : ℕ)
    (h : (gkeys gs).Nodup) : (gkeys (inserir_grupo gs c n)).Nodup := by
  by_cases hc : c ∈ gkeys gs
  · rwa [gkeys_inserir_of_mem n hc]
  · rw [gkeys_inserir_of_not_mem n hc]
    simp only [List.nodup_append, List.nodup_cons, List.not_mem_nil,
      not_false_iff, List.nodup_nil, and_true, true_and]
    exact ⟨h, fun a ha hb => hc ((List.mem_singleton.1 hb) ▸ ha)⟩

theorem mem_inserir_cases {gs : List (ℕ × List ℕ)} {c n : ℕ}
    {p : ℕ × List ℕ} (hnd : (gkeys gs).Nodup)
    (hp : p ∈ inserir_grupo gs c n) :
    (p ∈ gs ∧ p.1 ≠ c) ∨ (∃ l, (c, l) ∈ gs ∧ p = (c, l ++ [n])) ∨
      (p = (c, [n]) ∧ c ∉ gkeys gs) := by
  induction gs with
  | nil =>
    simp only [inserir_grupo, List.mem_singleton] at hp
    exact Or.inr (Or.inr ⟨hp, List.not_mem_nil c⟩)
  | cons g gs ih =>
    rw [gkeys_cons, List.nodup_cons] at hnd
    obtain ⟨hnd1, hnd2⟩ := hnd
    by_cases hg : g.1 = c
    · simp only [inserir_grupo, if_pos hg, List.mem_cons] at hp
      rcases hp with hp | hp
      · refine Or.inr (Or.inl ⟨g.2, ?_, ?_⟩)
        · rw [← hg]
          exact List.mem_cons_self g gs
        · rw [hp, hg]
      · have hmem : p.1 ∈ gkeys gs := mem_gkeys_of_mem hp
        refine Or.inl ⟨List.mem_cons_of_mem _ hp, fun hpc => ?_⟩
        rw [hpc, ← hg] at hmem
        exact hnd1 hmem
    · simp only [inserir_grupo, if_neg hg, List.mem_cons] at hp
      rcases hp with hp | hp
      · exact Or.inl ⟨by rw [hp]; exact List.mem_cons_self g gs,
          by rw [hp]; exact hg⟩
      · rcases ih hnd2 hp with h1 | h1 | h1
        · exact Or.inl ⟨List.mem_cons_of_mem _ h1.1, h1.2⟩
        · obtain ⟨l, hl, hpl⟩ := h1
          exact Or.inr (Or.inl ⟨l, List.mem_cons_of_mem _ hl, hpl⟩)
        · refine Or.inr (Or.inr ⟨h1.1, fun hc => ?_⟩)
          rw [gkeys_cons, List.mem_cons] at hc
          rcases hc with h2 | h2
          · exact hg h2.symm
          · exact h1.2 h2

theorem agrupar_fold_inv (S : List (ℕ × ℕ)) :
    ∀ (gs : List (ℕ × List ℕ)) (Q : Particao),
    (∀ p ∈ gs, p.2 = membros Q p.1) →
    (∀ c, c ∈ pvalues Q → c ∈ gkeys gs) →
    (∀ c, c ∈ gkeys gs → c ∈ pvalues Q) →
    (gkeys gs).Nodup →
    (∀ p ∈ S.foldl (fun acc e => inserir_grupo acc e.2 e.1) gs,
        p.2 = membros (Q ++ S) p.1) ∧
    (∀ c, c ∈ pvalues (Q ++ S) →
        c ∈ gkeys (S.foldl (fun acc e => inserir_grupo acc e.2 e.1) gs)) ∧
    (∀ c, c ∈ gkeys (S.foldl (fun acc e => inserir_grupo acc e.2 e.1) gs) →
        c ∈ pvalues (Q ++ S)) ∧
    (gkeys (S.foldl (fun acc e => inserir_grupo acc e.2 e.1) gs)).Nodup := by
  induction S with
  | nil =>
    intro gs Q h1 h2 h3 h4
    simp only [List.foldl_nil, List.append_nil]
    exact ⟨h1, h2, h3, h4⟩
  | cons e S ih =>
    intro gs Q h1 h2 h3 h4
    have step1 : ∀ p ∈ inserir_grupo gs e.2 e.1, p.2 = membros (Q ++ [e]) p.1 := by
      intro p hp
      rcases mem_inserir_cases h4 hp with hc | hc | hc
      · rw [membros_append, if_neg (fun h => hc.2 h.symm), List.append_nil]
        exact h1 p hc.1
      · obtain ⟨l, hl, hpl⟩ := hc
        have hml : l = membros Q e.2 := h1 (e.2, l) hl
        rw [hpl]
        show l ++ [e.1] = membros (Q ++ [e]) e.2
        rw [membros_append, if_pos rfl, ← hml]
      · have hnv : e.2 ∉ pvalues Q := fun hv => hc.2 (h2 _ hv)
        rw [hc.1]
        show [e.1] = membros (Q ++ [e]) e.2
        rw [membros_append, if_pos rfl, membros_eq_nil_of_not_mem hnv,
          List.nil_append]
    have step2 : ∀ c, c ∈ pvalues (Q ++ [e]) →
        c ∈ gkeys (inserir_grupo gs e.2 e.1) := by
      intro c hcv
      rw [pvalues_append] at hcv
      rcases List.mem_append.1 hcv with hcv | hcv
      · exact mem_gkeys_inserir.2 (Or.inl (h2 c hcv))
      · exact mem_gkeys_inserir.2 (Or.inr (List.mem_singleton.1 hcv))
    have step3 : ∀ c, c ∈ gkeys (inserir_grupo gs e.2 e.1) →
        c ∈ pvalues (Q ++ [e]) := by
      intro c hck
      rw [pvalues_append]
      rcases mem_gkeys_inserir.1 hck with hck | hck
      · exact List.mem_append.2 (Or.inl (h3 c hck))
      · exact List.mem_append.2 (Or.inr (by rw [hck]; exact List.mem_singleton.2 rfl))
    have step4 : (gkeys (inserir_grupo gs e.2 e.1)).Nodup := nodup_gkeys_inserir e.1 h4
    have hrec := ih (inserir_grupo gs e.2 e.1) (Q ++ [e]) step1 step2 step3 step4
    rw [List.append_assoc, List.singleton_append] at hrec
    simpa only [List.foldl_cons] using hrec

theorem agrupar_por_comunidade_inv (P : Particao) :
    (∀ p ∈ agrupar_por_comunidade P, p.2 = membros P p.1) ∧
    (∀ c, c ∈ pvalues P → c ∈ gkeys (agrupar_por_comunidade P)) ∧
    (∀ c, c ∈ gkeys (agrupar_por_comunidade P) → c ∈ pvalues P) ∧
    (gkeys (agrupar_por_comunidade P)).Nodup := by
  have h := agrupar_fold_inv P [] []
    (fun p hp => absurd hp (List.not_mem_nil p))
    (fun c hc => absurd hc (List.not_mem_nil c))
    (fun c hc => absurd hc (List.not_mem_nil c))
    List.nodup_nil
  rw [List.nil_append] at h
  exact h

/-- C10.  For every graph `G` and every partition `P` whose domain is
any subset of `G`'s nodes, `calcular_modularidade G P` does not fail
and returns exactly the sum, over the communities formed by the mapped
nodes, of their modularity contributions — nodes of `G` not covered by
`P` contribute nothing. -/
theorem c10_modularidade_parcial (G : Grafo) (P : Particao)
    (h : ∀ k ∈ pkeys P, k ∈ G.nodes) :
    calcular_modularidade G P =
      some (((pvalues P).dedup.map
        (fun c => contribuicao G (membros P c))).sum) := by
  by_cases hm : peso_total G = 0
  · rw [calcular_modularidade, if_pos hm]
    congr 1
    rw [eq_comm, List.sum_eq_zero]
    intro x hx
    rcases List.mem_map.1 hx with ⟨c, _, rfl⟩
    simp [contribuicao, hm]
  · obtain ⟨hcont, hcompl, hsound, hnodup⟩ := agrupar_por_comunidade_inv P
    have hall : ((pkeys P).all (fun n => n ∈ G.nodes)) = true := by
      rw [List.all_eq_true]
      intro n hn
      exact decide_eq_true (h n hn)
    rw [calcular_modularidade, if_neg hm, if_pos hall]
    congr 1
    have h1 : (agrupar_por_comunidade P).map (fun g => contribuicao G g.2) =
        (gkeys (agrupar_por_comunidade P)).map
          (fun c => contribuicao G (membros P c)) := by
      rw [gkeys, List.map_map]
      apply List.map_congr_left
      intro p hp
      simp only [Function.comp]
      rw [hcont p hp]
    have hperm : (gkeys (agrupar_por_comunidade P)).Perm (pvalues P).dedup := by
      rw [List.perm_ext_iff_of_nodup hnodup (List.nodup_dedup _)]
      intro c
      rw [List.mem_dedup]
      exact ⟨hsound c, hcompl c⟩
    rw [h1]
    exact (hperm.map _).sum_eq

/-- Witness for C10: on the two-disjoint-edges graph with a partition
covering only nodes 0 and 1 (both in community 0), the modularity is
computed without failure and equals the single community's
contribution `1/4`. -/
theorem c10_witness :
    (∀ k ∈ pkeys [(0, 0), (1, 0)], k ∈ exemplo_duplo.nodes) ∧
      calcular_modularidade exemplo_duplo [(0, 0), (1, 0)] =
        some (((pvalues [(0, 0), (1, 0)]).dedup.map
          (fun c => contribuicao exemplo_duplo (membros [(0, 0), (1, 0)] c))).sum) ∧
      calcular_modularidade exemplo_duplo [(0, 0), (1, 0)] = some (1/4) :=
  ⟨by decide, c10_modularidade_parcial exemplo_duplo [(0, 0), (1, 0)] (by decide),
   by decide⟩

/-! ## C7: local moving is idempotent at its fixed points -/

theorem passo_varredura_cases (H G : Grafo) (P : Particao) (b : Bool)
    (no : ℕ) :
    passo_varredura H G (P, b) no = (P, b) ∨
      (passo_varredura H G (P, b) no).2 = true := by
  simp only [passo_varredura]
  split
  · exact Or.inl rfl
  · split
    · exact Or.inr rfl
    · exact Or.inl rfl

theorem varredura_flag_mono (H G : Grafo) (L : List ℕ) (P : Particao) :
    (L.foldl (passo_varredura H G) (P, true)).2 = true := by
  induction L generalizing P with
  | nil => rfl
  | cons no L ih =>
    rw [List.foldl_cons]
    rcases passo_varredura_cases H G P true no with h | h
    · rw [h]
      exact ih P
    · rcases hp : passo_varredura H G (P, true) no with ⟨P', b⟩
      rw [hp] at h
      cases b with
      | false => exact absurd h (by simp)
      | true => exact ih P'

theorem varredura_false_eq {H G : Grafo} {L : List ℕ} {P Q : Particao}
    (h : varredura H G L P = (Q, false)) :
    Q = P ∧ ∀ no ∈ L, passo_varredura H G (P, false) no = (P, false) := by
  induction L generalizing P with
  | nil =>
    rw [varredura, List.foldl_nil] at h
    injection h with h1 h2
    exact ⟨h1.symm, fun no hno => absurd hno (List.not_mem_nil no)⟩
  | cons no L ih =>
    rw [varredura, List.foldl_cons] at h
    rcases passo_varredura_cases H G P false no with hp | hp
    · rw [hp] at h
      obtain ⟨hQP, hall⟩ := ih h
      refine ⟨hQP, fun n hn => ?_⟩
      rcases List.mem_cons.1 hn with rfl | hn
      · exact hp
      · exact hall n hn
    · rcases hpp : passo_varredura H G (P, false) no with ⟨P', b⟩
      rw [hpp] at hp h
      cases b with
      | false => exact absurd hp (by simp)
      | true =>
        have := varredura_flag_mono H G L P'
        rw [h] at this
        exact absurd this (by simp)

theorem varredura_of_no_moves {H G : Grafo} {L : List ℕ} {P : Particao}
    (h : ∀ no ∈ L, passo_varredura H G (P, false) no = (P, false)) :
    varredura H G L P = (P, false) := by
  induction L with
  | nil => rfl
  | cons no L ih =>
    rw [varredura, List.foldl_cons, h no (List.mem_cons_self no L)]
    exact ih (fun n hn => h n (List.mem_cons_of_mem _ hn))

theorem encontrar_fixpoint {fuel : ℕ} {o : ℕ → List ℕ} {H G : Grafo}
    {P0 P : Particao}
    (h : encontrar_movimentacao_local fuel o H G P0 = some P) :
    ∃ i, varredura H G (o i) P = (P, false) := by
  induction fuel generalizing o P0 with
  | zero => exact absurd h (by rw [encontrar_movimentacao_local]; simp)
  | succ fuel ih =>
    rw [encontrar_movimentacao_local] at h
    rcases hr : varredura H G (o 0) P0 with ⟨P1, b⟩
    rw [hr] at h
    cases b with
    | true =>
      rw [if_pos rfl] at h
      obtain ⟨i, hi⟩ := ih h
      exact ⟨i + 1, hi⟩
    | false =>
      rw [if_neg Bool.false_ne_true] at h
      have hP1 : P1 = P := Option.some_inj.1 h
      subst hP1
      obtain ⟨hQP, -⟩ := varredura_false_eq hr
      subst hQP
      exact ⟨0, hr⟩

/-- C7.  LocalMovingPhase is idempotent at its fixed points: whenever a
run of `encontrar_movimentacao_local` converges (each sweep visiting a
permutation of `H`'s nodes, as `random.shuffle` produces), re-running it
on the partition it produced, with the same `H` and `G` and any
permutation visitation orders, immediately converges to that same
partition. -/
theorem c7_movimentacao_local_idempotente {f1 : ℕ} {o1 o2 : ℕ → List ℕ}
    {H G : Grafo} {P0 P : Particao} (f2 : ℕ)
    (ho1 : ∀ i, (o1 i).Perm H.nodes) (ho2 : ∀ i, (o2 i).Perm H.nodes)
    (h : encontrar_movimentacao_local f1 o1 H G P0 = some P) :
    encontrar_movimentacao_local (f2 + 1) o2 H G P = some P := by
  obtain ⟨i, hi⟩ := encontrar_fixpoint h
  obtain ⟨-, hall⟩ := varredura_false_eq hi
  have hstep : ∀ no ∈ o2 0, passo_varredura H G (P, false) no = (P, false) := by
    intro no hno
    exact hall no ((ho1 i).mem_iff.2 ((ho2 0).mem_iff.1 hno))
  rw [encontrar_movimentacao_local, varredura_of_no_moves hstep,
    if_neg Bool.false_ne_true]

/-- Witness for C7: on the two-disjoint-edges graph the first run
converges to the two-community partition, and a second run with a
different (reversed) sweep order returns it unchanged. -/
theorem c7_witness :
    encontrar_movimentacao_local 2 (fun _ => [3, 2, 1, 0]) exemplo_duplo
        exemplo_duplo [(0, 1), (1, 1), (2, 3), (3, 3)] =
      some [(0, 1), (1, 1), (2, 3), (3, 3)] := by
  apply @c7_movimentacao_local_idempotente 3 (fun _ => [0, 1, 2, 3])
    (fun _ => [3, 2, 1, 0]) exemplo_duplo exemplo_duplo
    (particao_singleton exemplo_duplo) [(0, 1), (1, 1), (2, 3), (3, 3)] 1
  · intro i
    decide
  · intro i
    decide
  · decide

/-! ## C3: the returned partition is total over the input graph's nodes -/

theorem pkeys_foldl_generic {α σ : Type} (proj : σ → Particao)
    (f : σ → α → σ) (hf : ∀ st e, pkeys (proj (f st e)) = pkeys (proj st)) :
    ∀ (l : List α) (st : σ), pkeys (proj (l.foldl f st)) = pkeys (proj st) := by
  intro l
  induction l with
  | nil => intro st; rfl
  | cons e l ih => intro st; rw [List.foldl_cons, ih, hf]

theorem pkeys_passo_varredura (H G : Grafo) (st : Particao × Bool) (no : ℕ) :
    pkeys (passo_varredura H G st no).1 = pkeys st.1 := by
  simp only [passo_varredura]
  split
  · rfl
  · split
    · exact pkeys_pupdate _ _ _
    · rfl

theorem pkeys_varredura (H G : Grafo) (L : List ℕ) (P : Particao) :
    pkeys (varredura H G L P).1 = pkeys P :=
  pkeys_foldl_generic (·.1) (passo_varredura H G)
    (pkeys_passo_varredura H G) L (P, false)

theorem pkeys_encontrar {fuel : ℕ} {o : ℕ → List ℕ} {H G : Grafo}
    {P P' : Particao}
    (h : encontrar_movimentacao_local fuel o H G P = some P') :
    pkeys P' = pkeys P := by
  induction fuel generalizing o P with
  | zero => exact absurd h (by rw [encontrar_movimentacao_local]; simp)
  | succ fuel ih =>
    rw [encontrar_movimentacao_local] at h
    rcases hr : varredura H G (o 0) P with ⟨P1, b⟩
    rw [hr] at h
    have hk1 : pkeys P1 = pkeys P := by
      have := pkeys_varredura H G (o 0) P
      rw [hr] at this
      exact this
    cases b with
    | true =>
      rw [if_pos rfl] at h
      exact (ih h).trans hk1
    | false =>
      rw [if_neg Bool.false_ne_true] at h
      exact (Option.some_inj.1 h) ▸ hk1

theorem pkeys_dissolver (P : Particao) (nos : List ℕ) :
    pkeys (dissolver P nos) = pkeys P :=
  pkeys_foldl_generic id (fun acc no => pupdate acc no no)
    (fun st e => pkeys_pupdate st e e) nos P

theorem pkeys_refina_passo (d : Bool) (id_c : ℕ)
    (st : Particao × ℕ × List (ℕ × ℕ)) (e : ℕ × ℕ) :
    pkeys (refina_passo d id_c st e).1 = pkeys st.1 := by
  rw [refina_passo]
  split
  · split
    · exact pkeys_pupdate _ _ _
    · exact pkeys_pupdate _ _ _
  · exact pkeys_pupdate _ _ _

theorem pkeys_refinar_comunidade {fuelLM : ℕ} {o : ℕ → List ℕ} {G : Grafo}
    {P : Particao} {id_c : ℕ} {F F' : Particao} {cont cont' : ℕ}
    (h : refinar_comunidade fuelLM o G P id_c F cont = some (F', cont')) :
    pkeys F' = pkeys F := by
  simp only [refinar_comunidade] at h
  split at h
  · have h2 := Option.some_inj.1 h
    rw [Prod.mk.injEq] at h2
    rw [← h2.1]
  · rcases henc : encontrar_movimentacao_local fuelLM o
        (subgrafo G (membros P id_c)) G (dissolver P (membros P id_c)) with
      - | res
    · rw [henc] at h
      exact absurd h (by simp)
    · rw [henc] at h
      have h2 := Option.some_inj.1 h
      rw [Prod.mk.injEq] at h2
      rw [← h2.1]
      exact pkeys_foldl_generic (·.1) (refina_passo _ _)
        (pkeys_refina_passo _ _) _ _

theorem pkeys_refinar_loop {fuelLM : ℕ} {G : Grafo} {P : Particao}
    {ids : List ℕ} {ordens : ℕ → ℕ → List ℕ} {F F' : Particao}
    {cont cont' : ℕ}
    (h : refinar_loop fuelLM G P ids ordens F cont = some (F', cont')) :
    pkeys F' = pkeys F := by
  induction ids generalizing ordens F cont with
  | nil =>
    rw [refinar_loop] at h
    have h2 := Option.some_inj.1 h
    rw [Prod.mk.injEq] at h2
    rw [← h2.1]
  | cons c ids ih =>
    rw [refinar_loop] at h
    rcases hrc : refinar_comunidade fuelLM (ordens 0) G P c F cont with
      - | Fc
    · rw [hrc] at h
      exact absurd h (by simp)
    · rw [hrc] at h
      rcases Fc with ⟨F1, cont1⟩
      exact (ih h).trans (pkeys_refinar_comunidade hrc)

theorem pkeys_refinar_particao {fuelLM : ℕ} {ordens : ℕ → ℕ → List ℕ}
    {G : Grafo} {P P' : Particao}
    (h : refinar_particao fuelLM ordens G P = some P') :
    pkeys P' = pkeys P := by
  rw [refinar_particao] at h
  rcases hl : refinar_loop fuelLM G P ((pvalues P).dedup) ordens P
      (if P = [] then 0 else (pvalues P).foldr max 0 + 1) with - | Fc
  · rw [hl] at h
    exact absurd h (by simp)
  · rw [hl] at h
    rcases Fc with ⟨F, cont⟩
    rw [← Option.some_inj.1 h]
    exact pkeys_refinar_loop hl

theorem pkeys_particao_singleton (G : Grafo) :
    pkeys (particao_singleton G) = G.nodes := by
  rw [pkeys, particao_singleton, List.map_map]
  simp [Function.comp_def]

theorem pvalues_particao_singleton (G : Grafo) :
    pvalues (particao_singleton G) = G.nodes := by
  rw [pvalues, particao_singleton, List.map_map]
  simp [Function.comp_def]

theorem pkeys_mapear {mapa part : Particao}
    (h : ∀ v ∈ pvalues mapa, v ∈ pkeys part) :
    pkeys (mapear_particao mapa part) = pkeys mapa := by
  induction mapa with
  | nil => rfl
  | cons e es ih =>
    have he : e.2 ∈ pkeys part := h e.2 (by rw [pvalues_cons]; exact List.mem_cons_self _ _)
    have hsome := plookup_isSome_of_mem he
    rcases hl : plookup part e.2 with - | c
    · rw [hl] at hsome
      exact absurd hsome (by simp)
    · show pkeys (List.filterMap _ (e :: es)) = pkeys (e :: es)
      rw [List.filterMap_cons]
      simp only [hl, Option.map_some']
      show pkeys ((e.1, c) :: mapear_particao es part) = pkeys (e :: es)
      rw [show pkeys ((e.1, c) :: mapear_particao es part) =
        e.1 :: pkeys (mapear_particao es part) from rfl]
      rw [ih (fun v hv => h v (by rw [pvalues_cons]; exact List.mem_cons_of_mem _ hv))]
      rfl

theorem pvalues_mapear_sub {mapa part : Particao} {x : ℕ}
    (hx : x ∈ pvalues (mapear_particao mapa part)) : x ∈ pvalues part := by
  induction mapa with
  | nil => exact absurd hx (List.not_mem_nil x)
  | cons e es ih =>
    rw [mapear_particao, List.filterMap_cons] at hx
    rcases hl : plookup part e.2 with - | c
    · rw [hl] at hx
      exact ih (by rwa [mapear_particao])
    · rw [hl] at hx
      simp only [Option.map_some'] at hx
      rw [pvalues_cons] at hx
      rcases List.mem_cons.1 hx with rfl | hx
      · exact plookup_mem_pvalues hl
      · exact ih (by rwa [mapear_particao])

theorem leiden_loop_pkeys {fuelLM : ℕ} {G_orig : Grafo} :
    ∀ (fuel : ℕ) (ords : ℕ → ℕ → ℕ → List ℕ) (G : Grafo)
      (mapa melhor : Particao) (q : ℚ) (hist : List ℚ) (p : Particao)
      (h : List ℚ),
    pkeys mapa = G_orig.nodes →
    pkeys melhor = G_orig.nodes →
    (∀ v ∈ pvalues mapa, v ∈ G.nodes) →
    leiden_loop fuelLM G_orig fuel ords G mapa melhor q hist = some (p, h) →
    pkeys p = G_orig.nodes := by
  intro fuel
  induction fuel with
  | zero =>
    intro ords G mapa melhor q hist p h _ _ _ hrun
    exact absurd hrun (by rw [leiden_loop]; simp)
  | succ fuel ih =>
    intro ords G mapa melhor q hist p h hkm hkb hvm hrun
    simp only [leiden_loop] at hrun
    rcases henc : encontrar_movimentacao_local fuelLM (ords 0 0) G G
        (particao_singleton G) with - | p1
    · simp only [henc] at hrun
      exact absurd hrun (by simp)
    · simp only [henc] at hrun
      rcases href : refinar_particao fuelLM (fun j => ords 0 (j + 1)) G p1
          with - | p2
      · simp only [href] at hrun
        exact absurd hrun (by simp)
      · simp only [href] at hrun
        have hkp2 : pkeys p2 = G.nodes := by
          rw [pkeys_refinar_particao href, pkeys_encontrar henc,
            pkeys_particao_singleton]
        have hvm2 : ∀ v ∈ pvalues mapa, v ∈ pkeys p2 := by
          intro v hv
          rw [hkp2]
          exact hvm v hv
        have hkmap : pkeys (mapear_particao mapa p2) = G_orig.nodes := by
          rw [pkeys_mapear hvm2, hkm]
        rcases hq : calcular_modularidade G_orig (mapear_particao mapa p2)
            with - | q'
        · simp only [hq] at hrun
          exact absurd hrun (by simp)
        · simp only [hq] at hrun
          by_cases hle : q' ≤ q
          · rw [if_pos hle] at hrun
            have h2 := Option.some_inj.1 hrun
            rw [Prod.mk.injEq] at h2
            rw [← h2.1]
            exact hkb
          · rw [if_neg hle] at hrun
            by_cases hsz : (agrupar_grafo G p2).nodes.length = G.nodes.length
            · rw [if_pos hsz] at hrun
              have h2 := Option.some_inj.1 hrun
              rw [Prod.mk.injEq] at h2
              rw [← h2.1]
              exact hkmap
            · rw [if_neg hsz] at hrun
              refine ih _ _ _ _ _ _ _ _ hkmap hkmap ?_ hrun
              intro v hv
              exact List.mem_dedup.2 (pvalues_mapear_sub hv)

theorem louvain_loop_pkeys {fuelLM : ℕ} {G_orig : Grafo} :
    ∀ (fuel : ℕ) (ords : ℕ → ℕ → List ℕ) (G : Grafo)
      (mapa melhor : Particao) (q : ℚ) (hist : List ℚ) (p : Particao)
      (h : List ℚ),
    pkeys mapa = G_orig.nodes →
    pkeys melhor = G_orig.nodes →
    (∀ v ∈ pvalues mapa, v ∈ G.nodes) →
    louvain_loop fuelLM G_orig fuel ords G mapa melhor q hist = some (p, h) →
    pkeys p = G_orig.nodes := by
  intro fuel
  induction fuel with
  | zero =>
    intro ords G mapa melhor q hist p h _ _ _ hrun
    exact absurd hrun (by rw [louvain_loop]; simp)
  | succ fuel ih =>
    intro ords G mapa melhor q hist p h hkm hkb hvm hrun
    simp only [louvain_loop] at hrun
    rcases henc : encontrar_movimentacao_local fuelLM (ords 0) G G
        (particao_singleton G) with - | p1
    · simp only [henc] at hrun
      exact absurd hrun (by simp)
    · simp only [henc] at hrun
      have hkp1 : pkeys p1 = G.nodes := by
        rw [pkeys_encontrar henc, pkeys_particao_singleton]
      have hvm2 : ∀ v ∈ pvalues mapa, v ∈ pkeys p1 := by
        intro v hv
        rw [hkp1]
        exact hvm v hv
      have hkmap : pkeys (mapear_particao mapa p1) = G_orig.nodes := by
        rw [pkeys_mapear hvm2, hkm]
      rcases hq : calcular_modularidade G_orig (mapear_particao mapa p1)
          with - | q'
      · simp only [hq] at hrun
        exact absurd hrun (by simp)
      · simp only [hq] at hrun
        by_cases hle : q' ≤ q
        · rw [if_pos hle] at hrun
          have h2 := Option.some_inj.1 hrun
          rw [Prod.mk.injEq] at h2
          rw [← h2.1]
          exact hkb
        · rw [if_neg hle] at hrun
          by_cases hsz : (agrupar_grafo G p1).nodes.length = G.nodes.length
          · rw [if_pos hsz] at hrun
            have h2 := Option.some_inj.1 hrun
            rw [Prod.mk.injEq] at h2
            rw [← h2.1]
            exact hkmap
          · rw [if_neg hsz] at hrun
            refine ih _ _ _ _ _ _ _ _ hkmap hkmap ?_ hrun
            intro v hv
            exact List.mem_dedup.2 (pvalues_mapear_sub hv)

/-- C3.  For every finite weighted undirected input graph, the
partition returned by `leiden` and by `louvain` (whenever the run
completes within its fuel) is a total mapping: its domain is exactly
the node list of the input graph, so no input node is missing. -/
theorem c3_particao_total :
    (∀ (fo fl : ℕ) (ords : ℕ → ℕ → ℕ → List ℕ) (G : Grafo)
       (p : Particao) (h : List ℚ),
       leiden fo fl ords G = some (p, h) → pkeys p = G.nodes) ∧
    (∀ (fo fl : ℕ) (ords : ℕ → ℕ → List ℕ) (G : Grafo)
       (p : Particao) (h : List ℚ),
       louvain fo fl ords G = some (p, h) → pkeys p = G.nodes) := by
  constructor
  · intro fo fl ords G p h hrun
    exact leiden_loop_pkeys fo ords G (particao_singleton G)
      (particao_singleton G) (-1) [] p h (pkeys_particao_singleton G)
      (pkeys_particao_singleton G)
      (fun v hv => by rwa [pvalues_particao_singleton] at hv) hrun
  · intro fo fl ords G p h hrun
    exact louvain_loop_pkeys fo ords G (particao_singleton G)
      (particao_singleton G) (-1) [] p h (pkeys_particao_singleton G)
      (pkeys_particao_singleton G)
      (fun v hv => by rwa [pvalues_particao_singleton] at hv) hrun

/-- Witness for C3: a full `leiden` and `louvain` run on the
two-disjoint-edges graph, whose returned partition maps all four input
nodes. -/
theorem c3_witness :
    pkeys [(0, 1), (1, 1), (2, 3), (3, 3)] = exemplo_duplo.nodes ∧
      leiden 5 5 (fun _ _ _ => [0, 1, 2, 3]) exemplo_duplo =
        some ([(0, 1), (1, 1), (2, 3), (3, 3)], [1/2]) ∧
      louvain 5 5 (fun _ _ => [0, 1, 2, 3]) exemplo_duplo =
        some ([(0, 1), (1, 1), (2, 3), (3, 3)], [1/2]) :=
  ⟨c3_particao_total.1 5 5 (fun _ _ _ => [0, 1, 2, 3]) exemplo_duplo
      [(0, 1), (1, 1), (2, 3), (3, 3)] [1/2] (by decide),
   by decide, by decide⟩


/-! ## C5: the modularity history is strictly increasing and finite -/

theorem chain_snoc_of_lt {hist : List ℚ} {q : ℚ}
    (hchain : hist.Chain' (· < ·)) (hlt : ∀ x ∈ hist, x < q) :
    (hist ++ [q]).Chain' (· < ·) := by
  rw [List.chain'_append]
  refine ⟨hchain, List.chain'_singleton q, fun x hx y hy => ?_⟩
  have hyq : y = q := (Option.some_inj.1 (Option.mem_def.1 hy)).symm
  obtain ⟨hne, hxeq⟩ := List.mem_getLast?_eq_getLast hx
  rw [hyq, hxeq]
  exact hlt _ (List.getLast_mem hne)

theorem leiden_loop_hist {fuelLM : ℕ} {G_orig : Grafo} :
    ∀ (fuel : ℕ) (ords : ℕ → ℕ → ℕ → List ℕ) (G : Grafo)
      (mapa melhor : Particao) (q : ℚ) (hist : List ℚ) (p : Particao)
      (h : List ℚ),
    hist.Chain' (· < ·) → (∀ x ∈ hist, x ≤ q) →
    leiden_loop fuelLM G_orig fuel ords G mapa melhor q hist = some (p, h) →
    h.Chain' (· < ·) ∧ h.length ≤ hist.length + G.nodes.length + 1 := by
  intro fuel
  induction fuel with
  | zero =>
    intro ords G mapa melhor q hist p h _ _ hrun
    exact absurd hrun (by rw [leiden_loop]; simp)
  | succ fuel ih =>
    intro ords G mapa melhor q hist p h hchain hle0 hrun
    simp only [leiden_loop] at hrun
    rcases henc : encontrar_movimentacao_local fuelLM (ords 0 0) G G
        (particao_singleton G) with - | p1
    · simp only [henc] at hrun
      exact absurd hrun (by simp)
    · simp only [henc] at hrun
      rcases href : refinar_particao fuelLM (fun j => ords 0 (j + 1)) G p1
          with - | p2
      · simp only [href] at hrun
        exact absurd hrun (by simp)
      · simp only [href] at hrun
        rcases hq : calcular_modularidade G_orig (mapear_particao mapa p2)
            with - | q'
        · simp only [hq] at hrun
          exact absurd hrun (by simp)
        · simp only [hq] at hrun
          by_cases hle : q' ≤ q
          · rw [if_pos hle] at hrun
            have h2 := Option.some_inj.1 hrun
            rw [Prod.mk.injEq] at h2
            rw [← h2.2]
            exact ⟨hchain, by omega⟩
          · rw [if_neg hle] at hrun
            have hqlt : q < q' := not_le.1 hle
            have hlt : ∀ x ∈ hist, x < q' :=
              fun x hx => lt_of_le_of_lt (hle0 x hx) hqlt
            have hchain' : (hist ++ [q']).Chain' (· < ·) :=
              chain_snoc_of_lt hchain hlt
            have hle' : ∀ x ∈ hist ++ [q'], x ≤ q' := by
              intro x hx
              rcases List.mem_append.1 hx with hx | hx
              · exact le_of_lt (hlt x hx)
              · rw [List.mem_singleton.1 hx]
            by_cases hsz : (agrupar_grafo G p2).nodes.length = G.nodes.length
            · rw [if_pos hsz] at hrun
              have h2 := Option.some_inj.1 hrun
              rw [Prod.mk.injEq] at h2
              rw [← h2.2]
              refine ⟨hchain', ?_⟩
              rw [List.length_append]
              simp only [List.length_singleton]
              omega
            · rw [if_neg hsz] at hrun
              have hkp2 : pkeys p2 = G.nodes := by
                rw [pkeys_refinar_particao href, pkeys_encontrar henc,
                  pkeys_particao_singleton]
              have hlenp2 : p2.length = G.nodes.length := by
                have := congrArg List.length hkp2
                rwa [pkeys_length] at this
              have hsub : (agrupar_grafo G p2).nodes.length ≤ G.nodes.length := by
                show ((pvalues p2).dedup).length ≤ G.nodes.length
                calc ((pvalues p2).dedup).length
                    ≤ (pvalues p2).length := (List.dedup_sublist _).length_le
                  _ = p2.length := pvalues_length p2
                  _ = G.nodes.length := hlenp2
              have hdec : (agrupar_grafo G p2).nodes.length < G.nodes.length :=
                lt_of_le_of_ne hsub hsz
              obtain ⟨hch, hlen⟩ := ih _ _ _ _ _ _ _ _ hchain' hle' hrun
              refine ⟨hch, ?_⟩
              rw [List.length_append] at hlen
              simp only [List.length_singleton] at hlen
              omega

theorem louvain_loop_hist {fuelLM : ℕ} {G_orig : Grafo} :
    ∀ (fuel : ℕ) (ords : ℕ → ℕ → List ℕ) (G : Grafo)
      (mapa melhor : Particao) (q : ℚ) (hist : List ℚ) (p : Particao)
      (h : List ℚ),
    hist.Chain' (· < ·) → (∀ x ∈ hist, x ≤ q) →
    louvain_loop fuelLM G_orig fuel ords G mapa melhor q hist = some (p, h) →
    h.Chain' (· < ·) ∧ h.length ≤ hist.length + G.nodes.length + 1 := by
  intro fuel
  induction fuel with
  | zero =>
    intro ords G mapa melhor q hist p h _ _ hrun
    exact absurd hrun (by rw [louvain_loop]; simp)
  | succ fuel ih =>
    intro ords G mapa melhor q hist p h hchain hle0 hrun
    simp only [louvain_loop] at hrun
    rcases henc : encontrar_movimentacao_local fuelLM (ords 0) G G
        (particao_singleton G) with - | p1
    · simp only [henc] at hrun
      exact absurd hrun (by simp)
    · simp only [henc] at hrun
      rcases hq : calcular_modularidade G_orig (mapear_particao mapa p1)
          with - | q'
      · simp only [hq] at hrun
        exact absurd hrun (by simp)
      · simp only [hq] at hrun
        by_cases hle : q' ≤ q
        · rw [if_pos hle] at hrun
          have h2 := Option.some_inj.1 hrun
          rw [Prod.mk.injEq] at h2
          rw [← h2.2]
          exact ⟨hchain, by omega⟩
        · rw [if_neg hle] at hrun
          have hqlt : q < q' := not_le.1 hle
          have hlt : ∀ x ∈ hist, x < q' :=
            fun x hx => lt_of_le_of_lt (hle0 x hx) hqlt
          have hchain' : (hist ++ [q']).Chain' (· < ·) :=
            chain_snoc_of_lt hchain hlt
          have hle' : ∀ x ∈ hist ++ [q'], x ≤ q' := by
            intro x hx
            rcases List.mem_append.1 hx with hx | hx
            · exact le_of_lt (hlt x hx)
            · rw [List.mem_singleton.1 hx]
          by_cases hsz : (agrupar_grafo G p1).nodes.length = G.nodes.length
          · rw [if_pos hsz] at hrun
            have h2 := Option.some_inj.1 hrun
            rw [Prod.mk.injEq] at h2
            rw [← h2.2]
            refine ⟨hchain', ?_⟩
            rw [List.length_append]
            simp only [List.length_singleton]
            omega
          · rw [if_neg hsz] at hrun
            have hkp1 : pkeys p1 = G.nodes := by
              rw [pkeys_encontrar henc, pkeys_particao_singleton]
            have hlenp1 : p1.length = G.nodes.length := by
              have := congrArg List.length hkp1
              rwa [pkeys_length] at this
            have hsub : (agrupar_grafo G p1).nodes.length ≤ G.nodes.length := by
              show ((pvalues p1).dedup).length ≤ G.nodes.length
              calc ((pvalues p1).dedup).length
                  ≤ (pvalues p1).length := (List.dedup_sublist _).length_le
                _ = p1.length := pvalues_length p1
                _ = G.nodes.length := hlenp1
            have hdec : (agrupar_grafo G p1).nodes.length < G.nodes.length :=
              lt_of_le_of_ne hsub hsz
            obtain ⟨hch, hlen⟩ := ih _ _ _ _ _ _ _ _ hchain' hle' hrun
            refine ⟨hch, ?_⟩
            rw [List.length_append] at hlen
            simp only [List.length_singleton] at hlen
            omega

/-! ## C4: refinement never merges nodes across original communities -/

theorem le_foldr_max {l : List ℕ} {v : ℕ} (hv : v ∈ l) :
    v ≤ l.foldr max 0 := by
  induction l with
  | nil => exact absurd hv (List.not_mem_nil v)
  | cons a l ih =>
    rw [List.foldr_cons]
    rcases List.mem_cons.1 hv with rfl | hv
    · exact le_max_left _ _
    · exact le_trans (ih hv) (le_max_right _ _)

theorem plookup_mem_pair {P : Particao} {k v : ℕ}
    (h : plookup P k = some v) : (k, v) ∈ P := by
  induction P with
  | nil => exact absurd h (by rw [plookup]; simp)
  | cons e es ih =>
    rw [plookup] at h
    by_cases he : e.1 = k
    · rw [if_pos he] at h
      have hekv : e = (k, v) := by
        rcases e with ⟨e1, e2⟩
        rw [Prod.mk.injEq]
        exact ⟨he, Option.some_inj.1 h⟩
      rw [← hekv]
      exact List.mem_cons_self e es
    · rw [if_neg he] at h
      exact List.mem_cons_of_mem _ (ih h)

theorem plookup_of_mem_nodup {P : Particao} {e : ℕ × ℕ}
    (hnd : (pkeys P).Nodup) (he : e ∈ P) : plookup P e.1 = some e.2 := by
  induction P with
  | nil => exact absurd he (List.not_mem_nil e)
  | cons a es ih =>
    have hnd' : (pkeys es).Nodup ∧ a.1 ∉ pkeys es := by
      have h0 := hnd
      rw [show pkeys (a :: es) = a.1 :: pkeys es from rfl,
        List.nodup_cons] at h0
      exact ⟨h0.2, h0.1⟩
    rcases List.mem_cons.1 he with rfl | he
    · rw [plookup, if_pos rfl]
    · rw [plookup]
      by_cases ha : a.1 = e.1
      · exact absurd (ha ▸ mem_pkeys_of_plookup (ih hnd'.1 he)) hnd'.2
      · rw [if_neg ha]
        exact ih hnd'.1 he

theorem mem_membros_iff {P : Particao} {n c : ℕ}
    (hnd : (pkeys P).Nodup) : n ∈ membros P c ↔ plookup P n = some c := by
  constructor
  · intro h
    rw [membros] at h
    rcases List.mem_map.1 h with ⟨e, he, rfl⟩
    have hef := List.mem_filter.1 he
    have he2 : e.2 = c := by simpa using hef.2
    rw [← he2]
    exact plookup_of_mem_nodup hnd hef.1
  · intro h
    rw [membros]
    exact List.mem_map.2
      ⟨(n, c), List.mem_filter.2 ⟨plookup_mem_pair h, by simp⟩, rfl⟩

theorem plookup_pupdate_self {P : Particao} {k : ℕ} (v : ℕ)
    (hk : k ∈ pkeys P) : plookup (pupdate P k v) k = some v := by
  induction P with
  | nil => exact absurd hk (List.not_mem_nil k)
  | cons e es ih =>
    rw [pupdate, List.map_cons]
    by_cases he : e.1 = k
    · rw [if_pos he, plookup, if_pos rfl]
    · rw [if_neg he, plookup, if_neg he]
      have hk' : k ∈ pkeys es := by
        have hk0 := hk
        rw [show pkeys (e :: es) = e.1 :: pkeys es from rfl] at hk0
        rcases List.mem_cons.1 hk0 with h1 | h1
        · exact absurd h1.symm he
        · exact h1
      exact ih hk'

theorem plookup_pupdate_other {P : Particao} {k n : ℕ} (v : ℕ)
    (hn : n ≠ k) : plookup (pupdate P k v) n = plookup P n := by
  induction P with
  | nil => rfl
  | cons e es ih =>
    rw [pupdate, List.map_cons]
    by_cases he : e.1 = k
    · rw [if_pos he, plookup, if_neg (fun h => hn h.symm), plookup,
        if_neg (fun h => hn (he ▸ h).symm), ← pupdate, ih]
    · rw [if_neg he, plookup, plookup, ← pupdate, ih]

theorem refina_passo_inv {P : Particao} {M id_c cont0 : ℕ}
    (hnd : (pkeys P).Nodup) (hM : ∀ v ∈ pvalues P, v ≤ M)
    (hB0 : M + 1 ≤ cont0) (hid : id_c ≤ M) (d : Bool) {F : Particao}
    {cont : ℕ} {mapa : List (ℕ × ℕ)} {e : ℕ × ℕ}
    (he : e.1 ∈ membros P id_c)
    (hinv : inv_refina_loc P M id_c cont0 F cont mapa) :
    inv_refina_loc P M id_c cont0
      (refina_passo d id_c (F, cont, mapa) e).1
      (refina_passo d id_c (F, cont, mapa) e).2.1
      (refina_passo d id_c (F, cont, mapa) e).2.2 := by
  obtain ⟨hK, hBc, hMapa, hC, hD⟩ := hinv
  have heP : plookup P e.1 = some id_c := (mem_membros_iff hnd).1 he
  have heK : e.1 ∈ pkeys F := by
    rw [hK]
    exact mem_pkeys_of_plookup heP
  have hupd : ∀ w : ℕ,
      (pkeys (pupdate F e.1 w) = pkeys P) ∧
      plookup (pupdate F e.1 w) e.1 = some w ∧
      (∀ n : ℕ, n ≠ e.1 → plookup (pupdate F e.1 w) n = plookup F n) :=
    fun w => ⟨(pkeys_pupdate F e.1 w).trans hK, plookup_pupdate_self w heK,
      fun n hn => plookup_pupdate_other w hn⟩
  have hCgen : ∀ (w : ℕ), cont0 ≤ w → ∀ (cont1 : ℕ), w < cont1 → cont ≤ cont1 →
      (∀ n c, plookup P n = some c →
        ∃ v, plookup (pupdate F e.1 w) n = some v ∧
          (v = c ∨ (M < v ∧ v < cont0) ∨
            (cont0 ≤ v ∧ v < cont1 ∧ c = id_c))) := by
    intro w hw cont1 hw1 hcc1 n c hn
    by_cases hne : n = e.1
    · subst hne
      have hc : c = id_c := Option.some_inj.1 (hn.symm.trans heP)
      exact ⟨w, (hupd w).2.1, Or.inr (Or.inr ⟨hw, hw1, hc⟩)⟩
    · obtain ⟨v, hv, hvc⟩ := hC n c hn
      refine ⟨v, ((hupd w).2.2 n hne).trans hv, ?_⟩
      rcases hvc with h1 | h1 | h1
      · exact Or.inl h1
      · exact Or.inr (Or.inl h1)
      · exact Or.inr (Or.inr ⟨h1.1, lt_of_lt_of_le h1.2.1 hcc1, h1.2.2⟩)
  have hDmain : ∀ (w : ℕ), cont0 ≤ w →
      (∀ na nb ca cb, plookup P na = some ca → plookup P nb = some cb →
        ca ≠ cb →
        plookup (pupdate F e.1 w) na ≠ plookup (pupdate F e.1 w) nb) := by
    intro w hw na nb ca cb ha hb hne2
    by_cases hna : na = e.1 <;> by_cases hnb : nb = e.1
    · subst hna
      subst hnb
      exact absurd (Option.some_inj.1 (ha.symm.trans hb)) hne2
    · subst hna
      have hca : ca = id_c := Option.some_inj.1 (ha.symm.trans heP)
      rw [(hupd w).2.1, (hupd w).2.2 nb hnb]
      obtain ⟨vb, hvb, hvbc⟩ := hC nb cb hb
      rw [hvb]
      intro heq
      have hwvb : w = vb := Option.some_inj.1 heq
      have hcbne : cb ≠ id_c := fun hcb => hne2 (hca.trans hcb.symm)
      rcases hvbc with h1 | h1 | h1
      · have hcbM : cb ≤ M := hM cb (plookup_mem_pvalues hb)
        omega
      · omega
      · exact hcbne h1.2.2
    · subst hnb
      have hcb : cb = id_c := Option.some_inj.1 (hb.symm.trans heP)
      rw [(hupd w).2.1, (hupd w).2.2 na hna]
      obtain ⟨va, hva, hvac⟩ := hC na ca ha
      rw [hva]
      intro heq
      have hwva : va = w := Option.some_inj.1 heq
      have hcane : ca ≠ id_c := fun hca => hne2 (hca.trans hcb.symm)
      rcases hvac with h1 | h1 | h1
      · have hcaM : ca ≤ M := hM ca (plookup_mem_pvalues ha)
        omega
      · omega
      · exact hcane h1.2.2
    · rw [(hupd w).2.2 na hna, (hupd w).2.2 nb hnb]
      exact hD na nb ca cb ha hb hne2
  rw [refina_passo]
  cases d with
  | false =>
    rw [if_neg Bool.false_ne_true]
    refine ⟨(hupd id_c).1, hBc, hMapa, ?_, ?_⟩
    · intro n c hn
      by_cases hne : n = e.1
      · subst hne
        have hc : c = id_c := Option.some_inj.1 (hn.symm.trans heP)
        exact ⟨id_c, (hupd id_c).2.1, Or.inl hc.symm⟩
      · obtain ⟨v, hv, hvc⟩ := hC n c hn
        exact ⟨v, ((hupd id_c).2.2 n hne).trans hv, hvc⟩
    · intro na nb ca cb ha hb hne2
      by_cases hna : na = e.1 <;> by_cases hnb : nb = e.1
      · subst hna
        subst hnb
        exact absurd (Option.some_inj.1 (ha.symm.trans hb)) hne2
      · subst hna
        have hca : ca = id_c := Option.some_inj.1 (ha.symm.trans heP)
        rw [(hupd id_c).2.1, (hupd id_c).2.2 nb hnb]
        obtain ⟨vb, hvb, hvbc⟩ := hC nb cb hb
        rw [hvb]
        intro heq
        have hwvb : id_c = vb := Option.some_inj.1 heq
        have hcbne : cb ≠ id_c := fun hcb => hne2 (hca.trans hcb.symm)
        rcases hvbc with h1 | h1 | h1
        · exact hcbne (h1 ▸ hwvb).symm
        · omega
        · exact hcbne h1.2.2
      · subst hnb
        have hcb : cb = id_c := Option.some_inj.1 (hb.symm.trans heP)
        rw [(hupd id_c).2.1, (hupd id_c).2.2 na hna]
        obtain ⟨va, hva, hvac⟩ := hC na ca ha
        rw [hva]
        intro heq
        have hwva : va = id_c := Option.some_inj.1 heq
        have hcane : ca ≠ id_c := fun hca => hne2 (hca.trans hcb.symm)
        rcases hvac with h1 | h1 | h1
        · exact hcane (h1 ▸ hwva)
        · omega
        · exact hcane h1.2.2
      · rw [(hupd id_c).2.2 na hna, (hupd id_c).2.2 nb hnb]
        exact hD na nb ca cb ha hb hne2
  | true =>
    rw [if_pos rfl]
    rcases hm : plookup mapa e.2 with - | g
    · simp only [hm]
      refine ⟨(hupd cont).1, by omega, ?_, ?_, ?_⟩
      · intro g' hg'
        rw [show pvalues (mapa ++ [(e.2, cont)]) =
          pvalues mapa ++ [cont] from by simp [pvalues]] at hg'
        rcases List.mem_append.1 hg' with hg' | hg'
        · have hgm := hMapa g' hg'
          omega
        · have hgc : g' = cont := List.mem_singleton.1 hg'
          omega
      · exact hCgen cont hBc (cont + 1) (by omega) (by omega)
      · exact hDmain cont hBc
    · simp only [hm]
      have hg : cont0 ≤ g ∧ g < cont := hMapa g (plookup_mem_pvalues hm)
      refine ⟨(hupd g).1, hBc, hMapa, ?_, ?_⟩
      · exact hCgen g hg.1 cont hg.2 (le_refl cont)
      · exact hDmain g hg.1


theorem refina_fold_inv {P : Particao} {M id_c cont0 : ℕ}
    (hnd : (pkeys P).Nodup) (hM : ∀ v ∈ pvalues P, v ≤ M)
    (hB0 : M + 1 ≤ cont0) (hid : id_c ≤ M) (d : Bool) :
    ∀ (locais : List (ℕ × ℕ)) (F : Particao) (cont : ℕ)
      (mapa : List (ℕ × ℕ)),
    (∀ e ∈ locais, e.1 ∈ membros P id_c) →
    inv_refina_loc P M id_c cont0 F cont mapa →
    inv_refina_loc P M id_c cont0
      (locais.foldl (refina_passo d id_c) (F, cont, mapa)).1
      (locais.foldl (refina_passo d id_c) (F, cont, mapa)).2.1
      (locais.foldl (refina_passo d id_c) (F, cont, mapa)).2.2 := by
  intro locais
  induction locais with
  | nil =>
    intro F cont mapa _ hinv
    exact hinv
  | cons e locs ih =>
    intro F cont mapa hmem hinv
    rw [List.foldl_cons]
    have hstep := refina_passo_inv hnd hM hB0 hid d
      (hmem e (List.mem_cons_self e locs)) hinv
    rcases hst : refina_passo d id_c (F, cont, mapa) e with ⟨F2, cont2, mapa2⟩
    rw [hst] at hstep
    exact ih F2 cont2 mapa2
      (fun e' he' => hmem e' (List.mem_cons_of_mem _ he')) hstep

theorem refinar_comunidade_inv {fuelLM : ℕ} {o : ℕ → List ℕ} {G : Grafo}
    {P : Particao} {id_c M : ℕ} {F F' : Particao} {cont cont' : ℕ}
    (hnd : (pkeys P).Nodup) (hM : ∀ v ∈ pvalues P, v ≤ M)
    (hid : id_c ≤ M) (hB : M + 1 ≤ cont) (hinv : inv_refina P M F cont)
    (h : refinar_comunidade fuelLM o G P id_c F cont = some (F', cont')) :
    inv_refina P M F' cont' ∧ cont ≤ cont' := by
  obtain ⟨hK, hC, hD⟩ := hinv
  simp only [refinar_comunidade] at h
  split at h
  · have h2 := Option.some_inj.1 h
    rw [Prod.mk.injEq] at h2
    rw [← h2.1, ← h2.2]
    exact ⟨⟨hK, hC, hD⟩, le_refl cont⟩
  · rcases henc : encontrar_movimentacao_local fuelLM o
        (subgrafo G (membros P id_c)) G (dissolver P (membros P id_c)) with
      - | res
    · rw [henc] at h
      exact absurd h (by simp)
    · rw [henc] at h
      have hloc0 : inv_refina_loc P M id_c cont F cont [] := by
        refine ⟨hK, le_refl _, ?_, ?_, hD⟩
        · intro g hg
          exact absurd hg (by rw [show pvalues [] = [] from rfl]; simp)
        · intro n c hn
          obtain ⟨v, hv, hvc⟩ := hC n c hn
          refine ⟨v, hv, ?_⟩
          rcases hvc with h1 | h1
          · exact Or.inl h1
          · exact Or.inr (Or.inl h1)
      have hmem : ∀ e ∈ (membros P id_c).map (fun no => (no, pget res no)),
          e.1 ∈ membros P id_c := by
        intro e hee
        rcases List.mem_map.1 hee with ⟨no, hno, rfl⟩
        exact hno
      have hrfold := refina_fold_inv hnd hM hB hid
        (decide (1 < ((((membros P id_c).map
          (fun no => (no, pget res no))).map (·.2)).dedup).length))
        ((membros P id_c).map (fun no => (no, pget res no))) F cont []
        hmem hloc0
      have h2 := Option.some_inj.1 h
      rw [Prod.mk.injEq] at h2
      obtain ⟨hKf, hBf, -, hCf, hDf⟩ := hrfold
      refine ⟨⟨?_, ?_, ?_⟩, ?_⟩
      · rw [← h2.1]
        exact hKf
      · intro n c hn
        obtain ⟨v, hv, hvc⟩ := hCf n c hn
        rw [← h2.1, ← h2.2]
        refine ⟨v, hv, ?_⟩
        rcases hvc with h1 | h1 | h1
        · exact Or.inl h1
        · exact Or.inr ⟨h1.1, lt_of_lt_of_le h1.2 hBf⟩
        · exact Or.inr ⟨by omega, h1.2.1⟩
      · rw [← h2.1]
        exact hDf
      · rw [← h2.2]
        exact hBf

theorem refinar_loop_inv {fuelLM : ℕ} {G : Grafo} {P : Particao} {M : ℕ}
    (hnd : (pkeys P).Nodup) (hM : ∀ v ∈ pvalues P, v ≤ M) :
    ∀ (ids : List ℕ) (ordens : ℕ → ℕ → List ℕ) (F : Particao) (cont : ℕ)
      (F' : Particao) (cont' : ℕ),
    (∀ c ∈ ids, c ≤ M) → M + 1 ≤ cont → inv_refina P M F cont →
    refinar_loop fuelLM G P ids ordens F cont = some (F', cont') →
    inv_refina P M F' cont' := by
  intro ids
  induction ids with
  | nil =>
    intro ordens F cont F' cont' _ _ hinv h
    rw [refinar_loop] at h
    have h2 := Option.some_inj.1 h
    rw [Prod.mk.injEq] at h2
    rw [← h2.1]
    obtain ⟨hK, hC, hD⟩ := hinv
    refine ⟨hK, ?_, hD⟩
    intro n c hn
    obtain ⟨v, hv, hvc⟩ := hC n c hn
    refine ⟨v, hv, ?_⟩
    rcases hvc with h1 | h1
    · exact Or.inl h1
    · exact Or.inr ⟨h1.1, by rw [← h2.2]; exact h1.2⟩
  | cons c ids ih =>
    intro ordens F cont F' cont' hids hB hinv h
    rw [refinar_loop] at h
    rcases hrc : refinar_comunidade fuelLM (ordens 0) G P c F cont with - | Fc
    · rw [hrc] at h
      exact absurd h (by simp)
    · rw [hrc] at h
      rcases Fc with ⟨F1, cont1⟩
      obtain ⟨hinv1, hcont1⟩ := refinar_comunidade_inv hnd hM
        (hids c (List.mem_cons_self c ids)) hB hinv hrc
      exact ih _ _ _ _ _ (fun c' hc' => hids c' (List.mem_cons_of_mem _ hc'))
        (le_trans hB hcont1) hinv1 h

/-- C4.  `refinar_particao` never places two nodes that belonged to
different communities of its input partition into the same community
of its output partition: refinement may subdivide communities but
never merges across original community boundaries.  (The input
partition has one entry per node, as every partition built by the
algorithm does.) -/
theorem c4_refinamento_preserva_fronteiras {fuelLM : ℕ}
    {ordens : ℕ → ℕ → List ℕ} {G : Grafo} {P P' : Particao}
    {n1 n2 c1 c2 : ℕ} (hnd : (pkeys P).Nodup)
    (h : refinar_particao fuelLM ordens G P = some P')
    (hn1 : plookup P n1 = some c1) (hn2 : plookup P n2 = some c2)
    (hne : c1 ≠ c2) : plookup P' n1 ≠ plookup P' n2 := by
  have hPne : ¬(P = []) := by
    intro h0
    rw [h0] at hn1
    exact absurd hn1 (by rw [plookup]; simp)
  simp only [refinar_particao, if_neg hPne] at h
  rcases hl : refinar_loop fuelLM G P ((pvalues P).dedup) ordens P
      ((pvalues P).foldr max 0 + 1) with - | Fc
  · rw [hl] at h
    exact absurd h (by simp)
  · rw [hl] at h
    rcases Fc with ⟨F, cont⟩
    have hinit : inv_refina P ((pvalues P).foldr max 0) P
        ((pvalues P).foldr max 0 + 1) := by
      refine ⟨rfl, ?_, ?_⟩
      · intro n c hn
        exact ⟨c, hn, Or.inl rfl⟩
      · intro na nb ca cb ha hb hnecc
        rw [ha, hb]
        exact fun heq => hnecc (Option.some_inj.1 heq)
    have hinv := refinar_loop_inv hnd (fun v hv => le_foldr_max hv)
      ((pvalues P).dedup) ordens P ((pvalues P).foldr max 0 + 1) F cont
      (fun c hc => le_foldr_max (List.mem_dedup.1 hc)) (le_refl _)
      hinit hl
    obtain ⟨-, -, hD⟩ := hinv
    rw [← Option.some_inj.1 h]
    exact hD n1 n2 c1 c2 hn1 hn2 hne

/-- Witness for C4: refining the natural two-community partition of
the two-disjoint-edges graph keeps nodes 0 and 2 (from different
input communities) in different output communities. -/
theorem c4_witness :
    refinar_particao 3 (fun _ _ => [0, 1, 2, 3]) exemplo_duplo
        exemplo_duplo_particao = some exemplo_duplo_particao ∧
      plookup exemplo_duplo_particao 0 ≠ plookup exemplo_duplo_particao 2 :=
  ⟨by decide,
   @c4_refinamento_preserva_fronteiras 3 (fun _ _ => [0, 1, 2, 3])
     exemplo_duplo exemplo_duplo_particao exemplo_duplo_particao 0 2 0 1
     (by decide) (by decide) (by decide) (by decide) (by decide)⟩


/-! ## Termination of the local-moving greedy: sum toolkit -/

theorem sum_map_sub {α : Type} (l : List α) (f g : α → ℚ) :
    (l.map (fun e => f e - g e)).sum = (l.map f).sum - (l.map g).sum := by
  induction l with
  | nil => simp
  | cons e l ih =>
    simp only [List.map_cons, List.sum_cons, ih]
    ring

theorem sum_map_add {α : Type} (l : List α) (f g : α → ℚ) :
    (l.map (fun e => f e + g e)).sum = (l.map f).sum + (l.map g).sum := by
  induction l with
  | nil => simp
  | cons e l ih =>
    simp only [List.map_cons, List.sum_cons, ih]
    ring

theorem sum_filter_eq_sum_ite {α : Type} (l : List α) (p : α → Bool)
    (f : α → ℚ) :
    ((l.filter p).map f).sum =
      (l.map (fun e => if p e then f e else 0)).sum := by
  induction l with
  | nil => rfl
  | cons e l ih =>
    rw [List.filter_cons]
    by_cases h : p e
    · simp only [h, if_true, List.map_cons, List.sum_cons, ih]
    · simp only [h, if_false, List.map_cons, List.sum_cons, ih,
        Bool.false_eq_true]
      ring

theorem sum_filterMap_filter {α : Type} (l : List α)
    (g : α → Option (ℕ × ℚ)) (p : ℕ × ℚ → Bool) :
    (((l.filterMap g).filter p).map (fun v => v.2)).sum =
      (l.map (fun e =>
        match g e with
        | some b => if p b then b.2 else 0
        | none => 0)).sum := by
  induction l with
  | nil => rfl
  | cons e l ih =>
    rw [List.filterMap_cons]
    rcases hg : g e with - | b
    · simp only [List.map_cons, List.sum_cons, hg, ih]
      ring
    · rw [List.filter_cons]
      by_cases hp : p b
      · simp only [hp, if_true, List.map_cons, List.sum_cons, ih, hg]
      · simp only [hp, if_false, List.map_cons, List.sum_cons, ih, hg,
          Bool.false_eq_true]
        ring

theorem sum_support_one {S : List ℕ} (g : ℕ → ℚ) :
    ∀ {D : ℕ}, S.Nodup → D ∈ S → (∀ c ∈ S, c ≠ D → g c = 0) →
    (S.map g).sum = g D := by
  induction S with
  | nil =>
    intro D _ hD _
    exact absurd hD (List.not_mem_nil D)
  | cons a S ih =>
    intro D hnd hD hz
    rw [List.nodup_cons] at hnd
    rw [List.map_cons, List.sum_cons]
    by_cases haD : a = D
    · subst haD
      have hrest : (S.map g).sum = 0 := by
        rw [List.sum_eq_zero]
        intro x hx
        rcases List.mem_map.1 hx with ⟨c, hc, rfl⟩
        exact hz c (List.mem_cons_of_mem _ hc)
          (fun hcd => hnd.1 (hcd ▸ hc))
      rw [hrest]
      ring
    · have hD' : D ∈ S := by
        rcases List.mem_cons.1 hD with h1 | h1
        · exact absurd h1.symm haD
        · exact h1
      rw [hz a (List.mem_cons_self a S) haD,
        ih hnd.2 hD' (fun c hc hcd => hz c (List.mem_cons_of_mem _ hc) hcd)]
      ring

theorem sum_support_two {S : List ℕ} (g : ℕ → ℚ) {C D : ℕ}
    (hnd : S.Nodup) (hC : C ∈ S) (hD : D ∈ S) (hne : C ≠ D)
    (hz : ∀ c ∈ S, c ≠ C → c ≠ D → g c = 0) :
    (S.map g).sum = g C + g D := by
  induction S with
  | nil => exact absurd hC (List.not_mem_nil C)
  | cons a S ih =>
    rw [List.nodup_cons] at hnd
    rw [List.map_cons, List.sum_cons]
    by_cases haC : a = C
    · subst haC
      have hD' : D ∈ S := by
        rcases List.mem_cons.1 hD with h1 | h1
        · exact absurd h1.symm hne
        · exact h1
      rw [sum_support_one g hnd.2 hD'
        (fun c hc hcd => hz c (List.mem_cons_of_mem _ hc)
          (fun hca => hnd.1 (hca ▸ hc)) hcd)]
    · by_cases haD : a = D
      · subst haD
        have hC' : C ∈ S := by
          rcases List.mem_cons.1 hC with h1 | h1
          · exact absurd h1 hne
          · exact h1
        rw [sum_support_one g hnd.2 hC'
          (fun c hc hcd => hz c (List.mem_cons_of_mem _ hc) hcd
            (fun hca => hnd.1 (hca ▸ hc)))]
        ring
      · have hC' : C ∈ S := by
          rcases List.mem_cons.1 hC with h1 | h1
          · exact absurd h1.symm haC
          · exact h1
        have hD' : D ∈ S := by
          rcases List.mem_cons.1 hD with h1 | h1
          · exact absurd h1.symm haD
          · exact h1
        rw [hz a (List.mem_cons_self a S) haC haD,
          ih hnd.2 hC' hD'
            (fun c hc => hz c (List.mem_cons_of_mem _ hc))]
        ring

/-! ## Termination: how one move changes the member lists -/

theorem pupdate_of_not_mem {P : Particao} {k : ℕ} (v : ℕ)
    (h : k ∉ pkeys P) : pupdate P k v = P := by
  induction P with
  | nil => rfl
  | cons e es ih =>
    have he : ¬(e.1 = k) := fun h1 =>
      h (by rw [show pkeys (e :: es) = e.1 :: pkeys es from rfl, h1]
            exact List.mem_cons_self _ _)
    have hes : k ∉ pkeys es := fun h1 =>
      h (by rw [show pkeys (e :: es) = e.1 :: pkeys es from rfl]
            exact List.mem_cons_of_mem _ h1)
    rw [pupdate, List.map_cons, if_neg he, ← pupdate, ih hes]

theorem nodup_cons_of_pkeys {e : ℕ × ℕ} {es : Particao}
    (hnd : (pkeys (e :: es)).Nodup) :
    e.1 ∉ pkeys es ∧ (pkeys es).Nodup := by
  rw [show pkeys (e :: es) = e.1 :: pkeys es from rfl, List.nodup_cons] at hnd
  exact hnd

theorem membros_pupdate_ne {P : Particao} {no C D c : ℕ}
    (hnd : (pkeys P).Nodup) (hC : plookup P no = some C)
    (h1 : c ≠ C) (h2 : c ≠ D) :
    membros (pupdate P no D) c = membros P c := by
  induction P with
  | nil => rfl
  | cons e es ih =>
    obtain ⟨hk, hnd'⟩ := nodup_cons_of_pkeys hnd
    rw [pupdate, List.map_cons]
    by_cases he : e.1 = no
    · rw [if_pos he]
      have he2 : e.2 = C := by
        rw [plookup, if_pos he] at hC
        exact Option.some_inj.1 hC
      have hnoes : no ∉ pkeys es := he ▸ hk
      rw [membros_cons, membros_cons, ← pupdate, pupdate_of_not_mem D hnoes,
        if_neg (fun h => h2 h.symm), if_neg (fun h => h1 (he2 ▸ h).symm)]
    · rw [if_neg he]
      rw [plookup, if_neg he] at hC
      rw [membros_cons, membros_cons, ← pupdate, ih hnd' hC]

theorem membros_pupdate_old {P : Particao} {no C D : ℕ}
    (hnd : (pkeys P).Nodup) (hC : plookup P no = some C) (hne : C ≠ D) :
    membros (pupdate P no D) C = (membros P C).erase no := by
  induction P with
  | nil => rfl
  | cons e es ih =>
    obtain ⟨hk, hnd'⟩ := nodup_cons_of_pkeys hnd
    rw [pupdate, List.map_cons]
    by_cases he : e.1 = no
    · rw [if_pos he]
      have he2 : e.2 = C := by
        rw [plookup, if_pos he] at hC
        exact Option.some_inj.1 hC
      have hnoes : no ∉ pkeys es := he ▸ hk
      rw [membros_cons, membros_cons, ← pupdate, pupdate_of_not_mem D hnoes,
        if_neg (fun h => hne h.symm), if_pos he2, List.nil_append]
      rw [show ([e.1] ++ membros es C : List ℕ) = e.1 :: membros es C from rfl,
        he, List.erase_cons_head]
    · rw [if_neg he]
      rw [plookup, if_neg he] at hC
      rw [membros_cons, membros_cons, ← pupdate, ih hnd' hC]
      by_cases he2 : e.2 = C
      · rw [if_pos he2, List.singleton_append, List.singleton_append,
          List.erase_cons_tail]
        simp only [beq_iff_eq]
        exact fun h => he h
      · rw [if_neg he2, List.nil_append, List.nil_append]

theorem membros_pupdate_new {P : Particao} {no C D : ℕ}
    (hnd : (pkeys P).Nodup) (hC : plookup P no = some C) (hne : C ≠ D) :
    (membros (pupdate P no D) D).Perm (no :: membros P D) := by
  induction P with
  | nil => exact absurd hC (by rw [plookup]; simp)
  | cons e es ih =>
    obtain ⟨hk, hnd'⟩ := nodup_cons_of_pkeys hnd
    rw [pupdate, List.map_cons]
    by_cases he : e.1 = no
    · rw [if_pos he]
      have he2 : e.2 = C := by
        rw [plookup, if_pos he] at hC
        exact Option.some_inj.1 hC
      have hnoes : no ∉ pkeys es := he ▸ hk
      rw [membros_cons, membros_cons, ← pupdate, pupdate_of_not_mem D hnoes,
        if_pos rfl, if_neg (fun h => hne (he2 ▸ h)), List.nil_append,
        List.singleton_append]
    · rw [if_neg he]
      rw [plookup, if_neg he] at hC
      rw [membros_cons, membros_cons, ← pupdate]
      by_cases he2 : e.2 = D
      · rw [if_pos he2, List.singleton_append, List.singleton_append]
        exact (List.Perm.cons e.1 (ih hnd' hC)).trans
          (List.Perm.swap no e.1 _)
      · rw [if_neg he2, List.nil_append, List.nil_append]
        exact ih hnd' hC

theorem membros_nodup {P : Particao} (hnd : (pkeys P).Nodup) (c : ℕ) :
    (membros P c).Nodup := by
  have hsub : List.Sublist (membros P c) (pkeys P) := by
    rw [membros, pkeys]
    exact (List.filter_sublist P).map (·.1)
  exact List.Nodup.sublist hsub hnd

theorem pvalues_pupdate_sub {P : Particao} {k v x : ℕ}
    (hx : x ∈ pvalues (pupdate P k v)) : x ∈ pvalues P ∨ x = v := by
  induction P with
  | nil => exact absurd hx (List.not_mem_nil x)
  | cons e es ih =>
    rw [pupdate, List.map_cons] at hx
    by_cases he : e.1 = k
    · rw [if_pos he] at hx
      rw [pvalues_cons] at hx
      rcases List.mem_cons.1 hx with rfl | hx
      · exact Or.inr rfl
      · rcases ih (by rwa [pupdate]) with h1 | h1
        · exact Or.inl (by rw [pvalues_cons]; exact List.mem_cons_of_mem _ h1)
        · exact Or.inr h1
    · rw [if_neg he] at hx
      rw [pvalues_cons] at hx
      rcases List.mem_cons.1 hx with rfl | hx
      · exact Or.inl (by rw [pvalues_cons]; exact List.mem_cons_self _ _)
      · rcases ih (by rwa [pupdate]) with h1 | h1
        · exact Or.inl (by rw [pvalues_cons]; exact List.mem_cons_of_mem _ h1)
        · exact Or.inr h1

theorem pget_eq_iff {P : Particao} {x c : ℕ} (hx : x ∈ pkeys P) :
    pget P x = c ↔ plookup P x = some c := by
  have hsome := plookup_isSome_of_mem hx
  rcases hl : plookup P x with - | v
  · rw [hl] at hsome
    exact absurd hsome (by simp)
  · rw [pget, hl]
    simp

theorem mem_membros_pget {P : Particao} {x c : ℕ}
    (hnd : (pkeys P).Nodup) (hx : x ∈ pkeys P) :
    x ∈ membros P c ↔ pget P x = c := by
  rw [mem_membros_iff hnd, pget_eq_iff hx]


/-! ## Termination: the modularity potential and how a move changes it -/

theorem contribuicao_nil (G : Grafo) : contribuicao G ([] : List ℕ) = 0 := by
  have h : G.edges.filter
      (fun e => e.1 ∈ ([] : List ℕ) ∧ e.2.1 ∈ ([] : List ℕ)) = [] := by
    rw [List.filter_eq_nil_iff]
    intro e _
    simp
  rw [contribuicao, peso_interno, h, soma_graus]
  simp

theorem peso_interno_congr (G : Grafo) {S T : List ℕ}
    (h : ∀ x, x ∈ S ↔ x ∈ T) : peso_interno G S = peso_interno G T := by
  rw [peso_interno, peso_interno]
  have heq : G.edges.filter (fun e => e.1 ∈ S ∧ e.2.1 ∈ S) =
      G.edges.filter (fun e => e.1 ∈ T ∧ e.2.1 ∈ T) := by
    apply List.filter_congr
    intro e _
    exact decide_eq_decide.2 (and_congr (h _) (h _))
  rw [heq]

theorem soma_graus_perm (G : Grafo) {S T : List ℕ} (h : S.Perm T) :
    soma_graus G S = soma_graus G T := by
  rw [soma_graus, soma_graus]
  exact (h.map (grau G)).sum_eq

theorem contribuicao_perm (G : Grafo) {S T : List ℕ} (h : S.Perm T) :
    contribuicao G S = contribuicao G T := by
  rw [contribuicao, contribuicao,
    peso_interno_congr G (fun x => h.mem_iff), soma_graus_perm G h]

theorem sum_nodup_extend {S1 S2 : List ℕ} (f : ℕ → ℚ)
    (h1 : S1.Nodup) (h2 : S2.Nodup) (hsub : ∀ c ∈ S1, c ∈ S2)
    (hz : ∀ c ∈ S2, c ∉ S1 → f c = 0) :
    (S1.map f).sum = (S2.map f).sum := by
  rw [← List.sum_toFinset f h1, ← List.sum_toFinset f h2]
  apply Finset.sum_subset
  · intro x hx
    rw [List.mem_toFinset] at hx ⊢
    exact hsub x hx
  · intro x hx hnx
    rw [List.mem_toFinset] at hx
    rw [List.mem_toFinset] at hnx
    exact hz x hx hnx

theorem Qval_eq_sum_over (G : Grafo) (P : Particao) {S : List ℕ}
    (hS : S.Nodup) (hsub : ∀ c ∈ pvalues P, c ∈ S) :
    Qval G P = (S.map (fun c => contribuicao G (membros P c))).sum := by
  rw [Qval]
  apply sum_nodup_extend _ (List.nodup_dedup _) hS
  · intro c hc
    exact hsub c (List.mem_dedup.1 hc)
  · intro c _ hc
    rw [membros_eq_nil_of_not_mem (fun h => hc (List.mem_dedup.2 h))]
    exact contribuicao_nil G

theorem sum_filter_prop {α : Type} (l : List α) (p : α → Prop)
    [DecidablePred p] (f : α → ℚ) :
    ((l.filter (fun e => p e)).map f).sum =
      (l.map (fun e => if p e then f e else 0)).sum := by
  induction l with
  | nil => rfl
  | cons e l ih =>
    rw [List.filter_cons]
    by_cases h : p e
    · rw [if_pos (decide_eq_true h), List.map_cons, List.sum_cons, ih,
        List.map_cons, List.sum_cons, if_pos h]
    · rw [if_neg (fun hd => h (of_decide_eq_true hd)), ih, List.map_cons,
        List.sum_cons, if_neg h]
      ring

theorem sum_map_sub_pt {α : Type} (l : List α) (f g h : α → ℚ)
    (hpt : ∀ e ∈ l, f e = g e - h e) :
    (l.map f).sum = (l.map g).sum - (l.map h).sum := by
  induction l with
  | nil => simp
  | cons e l ih =>
    simp only [List.map_cons, List.sum_cons]
    rw [hpt e (List.mem_cons_self e l),
      ih (fun x hx => hpt x (List.mem_cons_of_mem _ hx))]
    ring

theorem sum_map_add3_pt {α : Type} (l : List α) (f g h k : α → ℚ)
    (hpt : ∀ e ∈ l, f e = g e + h e + k e) :
    (l.map f).sum = (l.map g).sum + (l.map h).sum + (l.map k).sum := by
  induction l with
  | nil => simp
  | cons e l ih =>
    simp only [List.map_cons, List.sum_cons]
    rw [hpt e (List.mem_cons_self e l),
      ih (fun x hx => hpt x (List.mem_cons_of_mem _ hx))]
    ring

theorem peso_interno_eq_map (G : Grafo) (S : List ℕ) :
    peso_interno G S = (G.edges.map
      (fun e => if e.1 ∈ S ∧ e.2.1 ∈ S then e.2.2 else 0)).sum := by
  rw [peso_interno]
  exact sum_filter_prop G.edges (fun e => e.1 ∈ S ∧ e.2.1 ∈ S)
    (fun e => e.2.2)

theorem laco_eq_map (G : Grafo) (no : ℕ) :
    laco G no = (G.edges.map
      (fun e => if e.1 = no ∧ e.2.1 = no then e.2.2 else 0)).sum := by
  rw [laco]
  exact sum_filter_prop G.edges (fun e => e.1 = no ∧ e.2.1 = no)
    (fun e => e.2.2)

theorem kpara_eq_map (G : Grafo) (P : Particao) (no c : ℕ) :
    kpara G P no c = (G.edges.map (fun e =>
        if e.1 = no then (if pget P e.2.1 = c then e.2.2 else 0)
        else if e.2.1 = no then (if pget P e.1 = c then e.2.2 else 0)
        else 0)).sum := by
  rw [kpara, adjacencia]
  generalize G.edges = es
  induction es with
  | nil => rfl
  | cons e es ih =>
    by_cases h1 : e.1 = no
    · have hfa : (if e.1 = no then some (e.2.1, e.2.2)
          else if e.2.1 = no then some (e.1, e.2.2) else none) =
          some (e.2.1, e.2.2) := if_pos h1
      rw [@List.filterMap_cons_some (ℕ × ℕ × ℚ) (ℕ × ℚ)
          (fun e => if e.1 = no then some (e.2.1, e.2.2)
          else if e.2.1 = no then some (e.1, e.2.2) else none) e es (e.2.1, e.2.2) hfa, List.filter_cons]
      by_cases h2 : pget P e.2.1 = c
      · rw [if_pos (decide_eq_true h2), List.map_cons, List.sum_cons, ih,
          List.map_cons, List.sum_cons, if_pos h1, if_pos h2]
      · rw [if_neg (fun hd => h2 (of_decide_eq_true hd)), ih, List.map_cons,
          List.sum_cons, if_pos h1, if_neg h2]
        ring
    · by_cases h2 : e.2.1 = no
      · have hfa : (if e.1 = no then some (e.2.1, e.2.2)
            else if e.2.1 = no then some (e.1, e.2.2) else none) =
            some (e.1, e.2.2) := by
          rw [if_neg h1, if_pos h2]
        rw [@List.filterMap_cons_some (ℕ × ℕ × ℚ) (ℕ × ℚ)
            (fun e => if e.1 = no then some (e.2.1, e.2.2)
          else if e.2.1 = no then some (e.1, e.2.2) else none) e es (e.1, e.2.2) hfa, List.filter_cons]
        by_cases h3 : pget P e.1 = c
        · rw [if_pos (decide_eq_true h3), List.map_cons, List.sum_cons, ih,
            List.map_cons, List.sum_cons, if_neg h1, if_pos h2, if_pos h3]
        · rw [if_neg (fun hd => h3 (of_decide_eq_true hd)), ih, List.map_cons,
            List.sum_cons, if_neg h1, if_pos h2, if_neg h3]
          ring
      · have hfa : (if e.1 = no then some (e.2.1, e.2.2)
            else if e.2.1 = no then some (e.1, e.2.2) else none) = none := by
          rw [if_neg h1, if_neg h2]
        rw [@List.filterMap_cons_none (ℕ × ℕ × ℚ) (ℕ × ℚ)
            (fun e => if e.1 = no then some (e.2.1, e.2.2)
          else if e.2.1 = no then some (e.1, e.2.2) else none) e es hfa, ih, List.map_cons, List.sum_cons,
          if_neg h1, if_neg h2]
        ring

theorem peso_interno_erase (G : Grafo) (P : Particao) {no C : ℕ}
    (hnd : (pkeys P).Nodup)
    (hend : ∀ e ∈ G.edges, e.1 ∈ pkeys P ∧ e.2.1 ∈ pkeys P)
    (hC : plookup P no = some C) :
    peso_interno G ((membros P C).erase no) =
      peso_interno G (membros P C) - kpara G P no C := by
  have hgno : pget P no = C := (pget_eq_iff (mem_pkeys_of_plookup hC)).2 hC
  have hSnd := membros_nodup hnd C
  rw [peso_interno_eq_map, peso_interno_eq_map, kpara_eq_map]
  apply sum_map_sub_pt
  intro e he
  obtain ⟨ha, hb⟩ := hend e he
  have hma : e.1 ∈ membros P C ↔ pget P e.1 = C := mem_membros_pget hnd ha
  have hmb : e.2.1 ∈ membros P C ↔ pget P e.2.1 = C := mem_membros_pget hnd hb
  have hea : e.1 ∈ (membros P C).erase no ↔
      e.1 ≠ no ∧ e.1 ∈ membros P C := hSnd.mem_erase_iff
  have heb : e.2.1 ∈ (membros P C).erase no ↔
      e.2.1 ≠ no ∧ e.2.1 ∈ membros P C := hSnd.mem_erase_iff
  by_cases h1 : e.1 = no
  · by_cases h2 : pget P e.2.1 = C
    · rw [if_neg (fun h => (hea.1 h.1).1 h1),
        if_pos ⟨hma.2 (by rw [h1]; exact hgno), hmb.2 h2⟩,
        if_pos h1, if_pos h2]
      ring
    · rw [if_neg (fun h => h2 (hmb.1 (heb.1 h.2).2)),
        if_neg (fun h => h2 (hmb.1 h.2)), if_pos h1, if_neg h2]
      ring
  · by_cases h2 : e.2.1 = no
    · by_cases h3 : pget P e.1 = C
      · rw [if_neg (fun h => (heb.1 h.2).1 h2),
          if_pos ⟨hma.2 h3, hmb.2 (by rw [h2]; exact hgno)⟩,
          if_neg h1, if_pos h2, if_pos h3]
        ring
      · rw [if_neg (fun h => h3 (hma.1 (hea.1 h.1).2)),
          if_neg (fun h => h3 (hma.1 h.1)), if_neg h1, if_pos h2, if_neg h3]
        ring
    · rw [if_neg h1, if_neg h2]
      by_cases h3 : e.1 ∈ membros P C ∧ e.2.1 ∈ membros P C
      · rw [if_pos h3, if_pos ⟨hea.2 ⟨h1, h3.1⟩, heb.2 ⟨h2, h3.2⟩⟩]
        ring
      · rw [if_neg h3, if_neg (fun h => h3 ⟨(hea.1 h.1).2, (heb.1 h.2).2⟩)]
        ring

theorem peso_interno_cons (G : Grafo) (P : Particao) {no C D : ℕ}
    (hnd : (pkeys P).Nodup)
    (hend : ∀ e ∈ G.edges, e.1 ∈ pkeys P ∧ e.2.1 ∈ pkeys P)
    (hC : plookup P no = some C) (hne : C ≠ D) :
    peso_interno G (no :: membros P D) =
      peso_interno G (membros P D) + kpara G P no D + laco G no := by
  have hkno : no ∈ pkeys P := mem_pkeys_of_plookup hC
  have hgno : pget P no = C := (pget_eq_iff hkno).2 hC
  have hnoS : no ∉ membros P D :=
    fun h => hne (hgno.symm.trans ((mem_membros_pget hnd hkno).1 h))
  rw [peso_interno_eq_map, peso_interno_eq_map, kpara_eq_map, laco_eq_map]
  apply sum_map_add3_pt
  intro e he
  obtain ⟨ha, hb⟩ := hend e he
  have hma : e.1 ∈ membros P D ↔ pget P e.1 = D := mem_membros_pget hnd ha
  have hmb : e.2.1 ∈ membros P D ↔ pget P e.2.1 = D := mem_membros_pget hnd hb
  by_cases h1 : e.1 = no
  · by_cases h2 : e.2.1 = no
    · rw [if_pos ⟨List.mem_cons.2 (Or.inl h1), List.mem_cons.2 (Or.inl h2)⟩,
        if_neg (fun h => hnoS (h1 ▸ h.1)),
        if_pos h1, if_neg (fun hd => hne (hgno.symm.trans (by
          rw [h2] at hd; exact hd))),
        if_pos ⟨h1, h2⟩]
      ring
    · by_cases h3 : pget P e.2.1 = D
      · rw [if_pos ⟨List.mem_cons.2 (Or.inl h1),
            List.mem_cons.2 (Or.inr (hmb.2 h3))⟩,
          if_neg (fun h => hnoS (h1 ▸ h.1)), if_pos h1, if_pos h3,
          if_neg (fun h => h2 h.2)]
        ring
      · rw [if_neg (fun h => (List.mem_cons.1 h.2).elim h2
            (fun hm => h3 (hmb.1 hm))),
          if_neg (fun h => h3 (hmb.1 h.2)), if_pos h1, if_neg h3,
          if_neg (fun h => h2 h.2)]
        ring
  · by_cases h2 : e.2.1 = no
    · by_cases h3 : pget P e.1 = D
      · rw [if_pos ⟨List.mem_cons.2 (Or.inr (hma.2 h3)),
            List.mem_cons.2 (Or.inl h2)⟩,
          if_neg (fun h => hnoS (h2 ▸ h.2)), if_neg h1, if_pos h2, if_pos h3,
          if_neg (fun h => h1 h.1)]
        ring
      · rw [if_neg (fun h => (List.mem_cons.1 h.1).elim h1
            (fun hm => h3 (hma.1 hm))),
          if_neg (fun h => h3 (hma.1 h.1)), if_neg h1, if_pos h2, if_neg h3,
          if_neg (fun h => h1 h.1)]
        ring
    · rw [if_neg h1, if_neg h2,
        if_neg (fun h : e.1 = no ∧ e.2.1 = no => h1 h.1)]
      by_cases h3 : e.1 ∈ membros P D ∧ e.2.1 ∈ membros P D
      · rw [if_pos h3, if_pos ⟨List.mem_cons.2 (Or.inr h3.1),
          List.mem_cons.2 (Or.inr h3.2)⟩]
        ring
      · rw [if_neg h3, if_neg
          (fun h : e.1 ∈ no :: membros P D ∧ e.2.1 ∈ no :: membros P D => h3
          ⟨(List.mem_cons.1 h.1).elim (fun hx => absurd hx h1) id,
           (List.mem_cons.1 h.2).elim (fun hx => absurd hx h2) id⟩)]
        ring

theorem soma_graus_cons (G : Grafo) (no : ℕ) (S : List ℕ) :
    soma_graus G (no :: S) = grau G no + soma_graus G S := by
  rw [soma_graus, soma_graus, List.map_cons, List.sum_cons]

theorem soma_graus_erase (G : Grafo) {S : List ℕ} {no : ℕ} (h : no ∈ S) :
    soma_graus G (S.erase no) = soma_graus G S - grau G no := by
  rw [soma_graus_perm G (List.perm_cons_erase h), soma_graus_cons]
  ring

theorem Qval_pupdate_move (G : Grafo) (P : Particao) {no C D : ℕ}
    (hnd : (pkeys P).Nodup)
    (hend : ∀ e ∈ G.edges, e.1 ∈ pkeys P ∧ e.2.1 ∈ pkeys P)
    (hC : plookup P no = some C) (hD : D ∈ pvalues P) (hne : C ≠ D)
    (hm : peso_total G ≠ 0) :
    Qval G (pupdate P no D) =
      Qval G P + calc_delta_q G P no D + laco G no / peso_total G := by
  have hgno : pget P no = C := (pget_eq_iff (mem_pkeys_of_plookup hC)).2 hC
  have hnoC : no ∈ membros P C := (mem_membros_iff hnd).2 hC
  have hCS : C ∈ (pvalues P).dedup := List.mem_dedup.2 (plookup_mem_pvalues hC)
  have hDS : D ∈ (pvalues P).dedup := List.mem_dedup.2 hD
  have h1 := Qval_eq_sum_over G P (List.nodup_dedup (pvalues P))
    (fun c hc => List.mem_dedup.2 hc)
  have h2 := Qval_eq_sum_over G (pupdate P no D)
    (List.nodup_dedup (pvalues P)) (by
      intro c hc
      rcases pvalues_pupdate_sub hc with h | h
      · exact List.mem_dedup.2 h
      · exact h ▸ List.mem_dedup.2 hD)
  have hdiff : ((pvalues P).dedup.map (fun c =>
      contribuicao G (membros (pupdate P no D) c)
        - contribuicao G (membros P c))).sum =
      Qval G (pupdate P no D) - Qval G P := by
    rw [sum_map_sub, ← h1, ← h2]
  have hsupp := sum_support_two (fun c =>
      contribuicao G (membros (pupdate P no D) c)
        - contribuicao G (membros P c))
    (List.nodup_dedup (pvalues P)) hCS hDS hne (by
      intro c _ hcC hcD
      show contribuicao G (membros (pupdate P no D) c)
          - contribuicao G (membros P c) = 0
      rw [membros_pupdate_ne hnd hC hcC hcD]
      ring)
  have hQ : Qval G (pupdate P no D) - Qval G P =
      (contribuicao G (membros (pupdate P no D) C)
        - contribuicao G (membros P C))
      + (contribuicao G (membros (pupdate P no D) D)
        - contribuicao G (membros P D)) := hdiff.symm.trans hsupp
  rw [membros_pupdate_old hnd hC hne,
    contribuicao_perm G (membros_pupdate_new hnd hC hne)] at hQ
  simp only [contribuicao] at hQ
  rw [peso_interno_erase G P hnd hend hC, soma_graus_erase G hnoC,
    peso_interno_cons G P hnd hend hC hne, soma_graus_cons] at hQ
  simp only [kpara] at hQ
  simp only [calc_delta_q, calc_propriedades]
  rw [if_neg hm, hgno, if_neg hne]
  linear_combination hQ

/-! ## Termination: each accepted move strictly increases `Qval` -/

theorem peso_total_nonneg (G : Grafo) (hw : ∀ e ∈ G.edges, 0 ≤ e.2.2) :
    0 ≤ peso_total G := by
  rw [peso_total]
  apply List.sum_nonneg
  intro x hx
  rcases List.mem_map.1 hx with ⟨e, he, rfl⟩
  exact hw e he

theorem laco_nonneg (G : Grafo) (no : ℕ) (hw : ∀ e ∈ G.edges, 0 ≤ e.2.2) :
    0 ≤ laco G no := by
  rw [laco]
  apply List.sum_nonneg
  intro x hx
  rcases List.mem_map.1 hx with ⟨e, he, rfl⟩
  exact hw e (List.mem_filter.1 he).1

theorem mm_fold_spec (G : Grafo) (P : Particao) (no id_atual : ℕ) :
    ∀ (cs : List ℕ) (best : ℕ × ℚ),
    cs.foldl (mm_passo G P no id_atual) best = best ∨
    ((cs.foldl (mm_passo G P no id_atual) best).1 ∈ cs ∧
     id_atual ≠ (cs.foldl (mm_passo G P no id_atual) best).1 ∧
     (cs.foldl (mm_passo G P no id_atual) best).2 =
       calc_delta_q G P no (cs.foldl (mm_passo G P no id_atual) best).1) := by
  intro cs
  induction cs with
  | nil => intro best; exact Or.inl rfl
  | cons c cs ih =>
    intro best
    rw [List.foldl_cons]
    have hstep : mm_passo G P no id_atual best c = best ∨
        (mm_passo G P no id_atual best c = (c, calc_delta_q G P no c) ∧
          id_atual ≠ c) := by
      simp only [mm_passo]
      by_cases h1 : id_atual ≠ c
      · rw [if_pos h1]
        by_cases h2 : best.2 < calc_delta_q G P no c
        · rw [if_pos h2]
          exact Or.inr ⟨rfl, h1⟩
        · rw [if_neg h2]
          exact Or.inl rfl
      · rw [if_neg h1]
        exact Or.inl rfl
    rcases ih (mm_passo G P no id_atual best c) with h | h
    · rw [h]
      rcases hstep with h2 | h2
      · rw [h2]
        exact Or.inl rfl
      · rw [h2.1]
        exact Or.inr ⟨List.mem_cons_self c cs, h2.2, rfl⟩
    · exact Or.inr ⟨List.mem_cons_of_mem c h.1, h.2.1, h.2.2⟩

theorem melhor_movimento_spec (G : Grafo) (P : Particao) (no : ℕ)
    (cs : List ℕ) (id_atual : ℕ)
    (h : 0 < (melhor_movimento G P no cs id_atual).2) :
    (melhor_movimento G P no cs id_atual).1 ∈ cs ∧
    id_atual ≠ (melhor_movimento G P no cs id_atual).1 ∧
    (melhor_movimento G P no cs id_atual).2 =
      calc_delta_q G P no (melhor_movimento G P no cs id_atual).1 := by
  have heq : melhor_movimento G P no cs id_atual =
      cs.foldl (mm_passo G P no id_atual) (id_atual, 0) := rfl
  rcases mm_fold_spec G P no id_atual cs (id_atual, 0) with h1 | h1
  · rw [heq, h1] at h
    exact absurd h (by norm_num)
  · rw [heq]
    exact h1

theorem passo_varredura_Q (H G : Grafo) (P : Particao) (b : Bool) (no : ℕ)
    (hnd : (pkeys P).Nodup)
    (hend : ∀ e ∈ G.edges, e.1 ∈ pkeys P ∧ e.2.1 ∈ pkeys P)
    (hw : ∀ e ∈ G.edges, 0 ≤ e.2.2) :
    Qval G P ≤ Qval G (passo_varredura H G (P, b) no).1 ∧
    (passo_varredura H G (P, b) no = (P, b) ∨
      (Qval G P < Qval G (passo_varredura H G (P, b) no).1 ∧
        (passo_varredura H G (P, b) no).2 = true)) ∧
    (∀ x ∈ pvalues (passo_varredura H G (P, b) no).1, x ∈ pvalues P) := by
  rcases hpl : plookup P no with - | id_atual
  · simp only [passo_varredura, hpl]
    exact ⟨le_refl _, Or.inl trivial, fun x hx => hx⟩
  · simp only [passo_varredura, hpl]
    by_cases hmv : 0 < (melhor_movimento G P no
        (((vizinhos H no).filterMap (fun v => plookup P v)).dedup)
        id_atual).2
    · rw [if_pos hmv]
      obtain ⟨hmem, hne0, hdq⟩ := melhor_movimento_spec G P no _ id_atual hmv
      have hDv : (melhor_movimento G P no
          (((vizinhos H no).filterMap (fun v => plookup P v)).dedup)
          id_atual).1 ∈ pvalues P := by
        rcases List.mem_filterMap.1 (List.mem_dedup.1 hmem) with ⟨v, hv, hlk⟩
        exact plookup_mem_pvalues hlk
      have hm : peso_total G ≠ 0 := by
        intro h0
        have h00 : calc_delta_q G P no (melhor_movimento G P no
            (((vizinhos H no).filterMap (fun v => plookup P v)).dedup)
            id_atual).1 = 0 := by
          simp only [calc_delta_q]
          rw [if_pos h0]
        rw [hdq, h00] at hmv
        exact lt_irrefl 0 hmv
      have hmove := Qval_pupdate_move G P hnd hend hpl hDv hne0 hm
      have hm0 : 0 < peso_total G :=
        lt_of_le_of_ne (peso_total_nonneg G hw) (Ne.symm hm)
      have hstrict : Qval G P < Qval G (pupdate P no
          (melhor_movimento G P no
            (((vizinhos H no).filterMap (fun v => plookup P v)).dedup)
            id_atual).1) := by
        rw [hmove]
        have h1 : 0 < calc_delta_q G P no (melhor_movimento G P no
            (((vizinhos H no).filterMap (fun v => plookup P v)).dedup)
            id_atual).1 := hdq ▸ hmv
        have h2 : 0 ≤ laco G no / peso_total G :=
          div_nonneg (laco_nonneg G no hw) (le_of_lt hm0)
        linarith
      refine ⟨le_of_lt hstrict, Or.inr ⟨hstrict, rfl⟩, ?_⟩
      intro x hx
      rcases pvalues_pupdate_sub hx with h | h
      · exact h
      · exact h ▸ hDv
    · rw [if_neg hmv]
      exact ⟨le_refl _, Or.inl rfl, fun x hx => hx⟩

theorem varredura_fold_Q (H G : Grafo) :
    ∀ (L : List ℕ) (P : Particao) (b : Bool),
    (pkeys P).Nodup →
    (∀ e ∈ G.edges, e.1 ∈ pkeys P ∧ e.2.1 ∈ pkeys P) →
    (∀ e ∈ G.edges, 0 ≤ e.2.2) →
    Qval G P ≤ Qval G (L.foldl (passo_varredura H G) (P, b)).1 ∧
    ((L.foldl (passo_varredura H G) (P, b)).2 = b ∨
      Qval G P < Qval G (L.foldl (passo_varredura H G) (P, b)).1) ∧
    (∀ x ∈ pvalues (L.foldl (passo_varredura H G) (P, b)).1,
      x ∈ pvalues P) := by
  intro L
  induction L with
  | nil =>
    intro P b _ _ _
    exact ⟨le_refl _, Or.inl rfl, fun x hx => hx⟩
  | cons no L ih =>
    intro P b hnd hend hw
    rw [List.foldl_cons]
    obtain ⟨hle1, hcase1, hsub1⟩ := passo_varredura_Q H G P b no hnd hend hw
    have hk1 : pkeys (passo_varredura H G (P, b) no).1 = pkeys P :=
      pkeys_passo_varredura H G (P, b) no
    rcases hst : passo_varredura H G (P, b) no with ⟨P1, b1⟩
    rw [hst] at hle1 hcase1 hsub1 hk1
    obtain ⟨hle2, hcase2, hsub2⟩ := ih P1 b1 (by rw [hk1]; exact hnd)
      (by rw [hk1]; exact hend) hw
    refine ⟨le_trans hle1 hle2, ?_, fun x hx => hsub1 x (hsub2 x hx)⟩
    rcases hcase1 with h1 | h1
    · injection h1 with e1 e2
      subst e1
      subst e2
      rcases hcase2 with h2 | h2
      · exact Or.inl h2
      · exact Or.inr h2
    · exact Or.inr (lt_of_lt_of_le h1.1 hle2)

theorem varredura_Q (H G : Grafo) (L : List ℕ) (P : Particao)
    (hnd : (pkeys P).Nodup)
    (hend : ∀ e ∈ G.edges, e.1 ∈ pkeys P ∧ e.2.1 ∈ pkeys P)
    (hw : ∀ e ∈ G.edges, 0 ≤ e.2.2) :
    Qval G P ≤ Qval G (varredura H G L P).1 ∧
    ((varredura H G L P).2 = true →
      Qval G P < Qval G (varredura H G L P).1) ∧
    (∀ x ∈ pvalues (varredura H G L P).1, x ∈ pvalues P) := by
  obtain ⟨h1, h2, h3⟩ := varredura_fold_Q H G L P false hnd hend hw
  rw [varredura]
  refine ⟨h1, ?_, h3⟩
  intro ht
  rcases h2 with h | h
  · exact absurd (ht.symm.trans h) (by simp)
  · exact h

/-! ## Termination: the local-moving loop halts on sufficient fuel -/

theorem mem_listas_todas {V : Finset ℕ} :
    ∀ (n : ℕ) (l : List ℕ), l.length = n → (∀ x ∈ l, x ∈ V) →
    l ∈ listas_todas n V := by
  intro n
  induction n with
  | zero =>
    intro l hl _
    rw [List.length_eq_zero] at hl
    subst hl
    rw [listas_todas]
    exact Finset.mem_singleton_self []
  | succ n ih =>
    intro l hl hV
    rcases l with - | ⟨a, l⟩
    · exact absurd hl (by simp)
    · rw [listas_todas]
      apply Finset.mem_biUnion.2
      refine ⟨a, hV a (List.mem_cons_self a l), ?_⟩
      apply Finset.mem_image.2
      exact ⟨l, ih l (by simpa using hl)
        (fun x hx => hV x (List.mem_cons_of_mem _ hx)), rfl⟩

theorem card_listas_todas_le (V : Finset ℕ) :
    ∀ n : ℕ, (listas_todas n V).card ≤ V.card ^ n := by
  intro n
  induction n with
  | zero =>
    rw [listas_todas]
    simp
  | succ n ih =>
    rw [listas_todas]
    calc (V.biUnion fun v => (listas_todas n V).image (fun l => v :: l)).card
        ≤ ∑ v ∈ V, ((listas_todas n V).image (fun l => v :: l)).card :=
          Finset.card_biUnion_le
      _ ≤ ∑ v ∈ V, (listas_todas n V).card :=
          Finset.sum_le_sum (fun v _ => Finset.card_image_le)
      _ = V.card * (listas_todas n V).card := by
          rw [Finset.sum_const, smul_eq_mul]
      _ ≤ V.card * V.card ^ n := Nat.mul_le_mul_left _ ih
      _ = V.card ^ (n + 1) := by ring

theorem zip_pkeys_pvalues (P : Particao) : (pkeys P).zip (pvalues P) = P :=
  (List.zip_of_prod (show P.map Prod.fst = pkeys P from rfl)
    (show P.map Prod.snd = pvalues P from rfl)).symm

theorem medida_lm_decrease (G : Grafo) (K : List ℕ) (V : Finset ℕ)
    {q0 : ℚ} (P1 : Particao)
    (hK : pkeys P1 = K) (hV : ∀ x ∈ pvalues P1, x ∈ V)
    (hlt : q0 < Qval G P1) :
    medida_lm G K V (Qval G P1) < medida_lm G K V q0 := by
  rw [medida_lm, medida_lm]
  apply Finset.card_lt_card
  rw [Finset.ssubset_iff_of_subset (Finset.monotone_filter_right _
    (fun vl hvl => lt_trans hlt hvl))]
  refine ⟨pvalues P1, Finset.mem_filter.2
    ⟨mem_listas_todas K.length (pvalues P1)
      (by rw [pvalues_length, ← hK, pkeys_length]) hV, ?_⟩, ?_⟩
  · rw [← hK, zip_pkeys_pvalues]
    exact hlt
  · intro hmem
    have h2 := (Finset.mem_filter.1 hmem).2
    rw [← hK, zip_pkeys_pvalues] at h2
    exact lt_irrefl _ h2

theorem encontrar_sufficient_gen (H G : Grafo) (V : Finset ℕ) :
    ∀ (fuel : ℕ) (o : ℕ → List ℕ) (P : Particao),
    (pkeys P).Nodup →
    (∀ e ∈ G.edges, e.1 ∈ pkeys P ∧ e.2.1 ∈ pkeys P) →
    (∀ e ∈ G.edges, 0 ≤ e.2.2) →
    (∀ x ∈ pvalues P, x ∈ V) →
    medida_lm G (pkeys P) V (Qval G P) < fuel →
    (encontrar_movimentacao_local fuel o H G P).isSome = true := by
  intro fuel
  induction fuel with
  | zero =>
    intro o P _ _ _ _ hm
    exact absurd hm (by omega)
  | succ fuel ih =>
    intro o P hnd hend hw hV hm
    obtain ⟨hle, hstrict, hsub⟩ := varredura_Q H G (o 0) P hnd hend hw
    have hk1 : pkeys (varredura H G (o 0) P).1 = pkeys P :=
      pkeys_varredura H G (o 0) P
    simp only [encontrar_movimentacao_local]
    rcases hr : varredura H G (o 0) P with ⟨P1, b1⟩
    rw [hr] at hle hstrict hsub hk1
    cases b1 with
    | false => simp
    | true =>
      rw [if_pos rfl]
      show (encontrar_movimentacao_local fuel (fun i => o (i + 1))
        H G P1).isSome = true
      apply ih (fun i => o (i + 1)) P1 (by rw [hk1]; exact hnd)
        (by rw [hk1]; exact hend) hw
        (fun x hx => hV x (hsub x hx))
      have hst : Qval G P < Qval G P1 := hstrict rfl
      have hdec := medida_lm_decrease G (pkeys P) V P1 hk1
        (fun x hx => hV x (hsub x hx)) hst
      rw [hk1]
      omega

theorem encontrar_sufficient (H G : Grafo) (fuel : ℕ) (o : ℕ → List ℕ)
    (P : Particao) (hnd : (pkeys P).Nodup)
    (hend : ∀ e ∈ G.edges, e.1 ∈ pkeys P ∧ e.2.1 ∈ pkeys P)
    (hw : ∀ e ∈ G.edges, 0 ≤ e.2.2)
    (hfuel : P.length ^ P.length < fuel) :
    (encontrar_movimentacao_local fuel o H G P).isSome = true := by
  apply encontrar_sufficient_gen H G (pvalues P).toFinset fuel o P hnd hend hw
    (fun x hx => List.mem_toFinset.2 hx)
  calc medida_lm G (pkeys P) (pvalues P).toFinset (Qval G P)
      ≤ (listas_todas (pkeys P).length (pvalues P).toFinset).card :=
        Finset.card_filter_le _ _
    _ ≤ (pvalues P).toFinset.card ^ (pkeys P).length :=
        card_listas_todas_le _ _
    _ ≤ P.length ^ P.length := by
        have h1 : (pvalues P).toFinset.card ≤ P.length := by
          have h0 := List.toFinset_card_le (pvalues P)
          rwa [pvalues_length] at h0
        rw [pkeys_length]
        exact Nat.pow_le_pow_left h1 P.length
    _ < fuel := hfuel

theorem pow_self_mono {a b : ℕ} (h : a ≤ b) : a ^ a ≤ b ^ b := by
  rcases Nat.eq_zero_or_pos a with rfl | ha
  · rcases Nat.eq_zero_or_pos b with rfl | hb
    · exact le_refl _
    · calc (0 : ℕ) ^ 0 = 1 := pow_zero 0
        _ ≤ b ^ b := Nat.one_le_pow b b hb
  · calc a ^ a ≤ b ^ a := Nat.pow_le_pow_left h a
      _ ≤ b ^ b := Nat.pow_le_pow_right (lt_of_lt_of_le ha h) h

/-! ## Termination: every phase succeeds on sufficient fuel -/

theorem pget_mem_pvalues {P : Particao} {k : ℕ} (hk : k ∈ pkeys P) :
    pget P k ∈ pvalues P := by
  have hs := plookup_isSome_of_mem hk
  rcases hl : plookup P k with - | v
  · rw [hl] at hs
    simp at hs
  · rw [pget, hl]
    exact plookup_mem_pvalues hl

theorem acumular_inv (nodes2 : List ℕ) (a b : ℕ) (w : ℚ)
    (ha : a ∈ nodes2) (hb : b ∈ nodes2) (hw : 0 ≤ w) :
    ∀ es : List (ℕ × ℕ × ℚ),
    (∀ e ∈ es, (e.1 ∈ nodes2 ∧ e.2.1 ∈ nodes2) ∧ 0 ≤ e.2.2) →
    ∀ e ∈ acumular_aresta es a b w,
      (e.1 ∈ nodes2 ∧ e.2.1 ∈ nodes2) ∧ 0 ≤ e.2.2 := by
  intro es
  induction es with
  | nil =>
    intro _ e he
    rw [acumular_aresta] at he
    have he2 : e = (a, b, w) := List.mem_singleton.1 he
    subst he2
    exact ⟨⟨ha, hb⟩, hw⟩
  | cons e0 es ih =>
    intro hes e he
    rw [acumular_aresta] at he
    by_cases hc : (e0.1 = a ∧ e0.2.1 = b) ∨ (e0.1 = b ∧ e0.2.1 = a)
    · rw [if_pos hc] at he
      rcases List.mem_cons.1 he with rfl | he2
      · have h0 := hes e0 (List.mem_cons_self _ _)
        exact ⟨h0.1, add_nonneg h0.2 hw⟩
      · exact hes e (List.mem_cons_of_mem _ he2)
    · rw [if_neg hc] at he
      rcases List.mem_cons.1 he with rfl | he2
      · exact hes e (List.mem_cons_self _ _)
      · exact ih (fun x hx => hes x (List.mem_cons_of_mem _ hx)) e he2

theorem agrupar_fold_edges (P : Particao) (nodes2 : List ℕ) :
    ∀ (es : List (ℕ × ℕ × ℚ)) (acc : List (ℕ × ℕ × ℚ)),
    (∀ e ∈ es, (pget P e.1 ∈ nodes2 ∧ pget P e.2.1 ∈ nodes2) ∧ 0 ≤ e.2.2) →
    (∀ e ∈ acc, (e.1 ∈ nodes2 ∧ e.2.1 ∈ nodes2) ∧ 0 ≤ e.2.2) →
    ∀ e ∈ es.foldl (fun acc e =>
        acumular_aresta acc (pget P e.1) (pget P e.2.1) e.2.2) acc,
      (e.1 ∈ nodes2 ∧ e.2.1 ∈ nodes2) ∧ 0 ≤ e.2.2 := by
  intro es
  induction es with
  | nil =>
    intro acc _ hacc e he
    exact hacc e he
  | cons e0 es ih =>
    intro acc hes hacc e he
    rw [List.foldl_cons] at he
    have h0 := hes e0 (List.mem_cons_self _ _)
    exact ih _ (fun x hx => hes x (List.mem_cons_of_mem _ hx))
      (acumular_inv nodes2 _ _ _ h0.1.1 h0.1.2 h0.2 acc hacc) e he

theorem agrupar_grafo_bem_formado (G : Grafo) (P : Particao)
    (hWF : GrafoBemFormado G) (hkeys : pkeys P = G.nodes) :
    GrafoBemFormado (agrupar_grafo G P) := by
  obtain ⟨hnd, hend, hw⟩ := hWF
  have hall := agrupar_fold_edges P ((pvalues P).dedup) G.edges []
    (fun e he => ⟨⟨List.mem_dedup.2 (pget_mem_pvalues
        (by rw [hkeys]; exact (hend e he).1)),
      List.mem_dedup.2 (pget_mem_pvalues
        (by rw [hkeys]; exact (hend e he).2))⟩, hw e he⟩)
    (fun e he => absurd he (List.not_mem_nil e))
  exact ⟨List.nodup_dedup _, fun e he => (hall e he).1,
    fun e he => (hall e he).2⟩

theorem refinar_comunidade_total (fuelLM : ℕ) (o : ℕ → List ℕ) (G : Grafo)
    (P : Particao) (id_c : ℕ) (F : Particao) (cont : ℕ)
    (hnd : (pkeys P).Nodup)
    (hend : ∀ e ∈ G.edges, e.1 ∈ pkeys P ∧ e.2.1 ∈ pkeys P)
    (hw : ∀ e ∈ G.edges, 0 ≤ e.2.2)
    (hfuel : P.length ^ P.length < fuelLM) :
    (refinar_comunidade fuelLM o G P id_c F cont).isSome = true := by
  simp only [refinar_comunidade]
  by_cases hlen : (membros P id_c).length ≤ 1
  · rw [if_pos hlen]
    simp
  · rw [if_neg hlen]
    have hkd : pkeys (dissolver P (membros P id_c)) = pkeys P :=
      pkeys_dissolver P _
    have hlend : (dissolver P (membros P id_c)).length = P.length := by
      have h0 := congrArg List.length hkd
      rwa [pkeys_length, pkeys_length] at h0
    have hsuf := encontrar_sufficient (subgrafo G (membros P id_c)) G fuelLM o
      (dissolver P (membros P id_c)) (by rw [hkd]; exact hnd)
      (by rw [hkd]; exact hend) hw (by rw [hlend]; exact hfuel)
    rcases hencq : encontrar_movimentacao_local fuelLM o
        (subgrafo G (membros P id_c)) G
        (dissolver P (membros P id_c)) with - | res
    · rw [hencq] at hsuf
      simp at hsuf
    · simp only [hencq]
      simp

theorem refinar_loop_total (fuelLM : ℕ) (G : Grafo) (P : Particao)
    (hnd : (pkeys P).Nodup)
    (hend : ∀ e ∈ G.edges, e.1 ∈ pkeys P ∧ e.2.1 ∈ pkeys P)
    (hw : ∀ e ∈ G.edges, 0 ≤ e.2.2)
    (hfuel : P.length ^ P.length < fuelLM) :
    ∀ (ids : List ℕ) (ordens : ℕ → ℕ → List ℕ) (F : Particao) (cont : ℕ),
    (refinar_loop fuelLM G P ids ordens F cont).isSome = true := by
  intro ids
  induction ids with
  | nil =>
    intro ordens F cont
    rw [refinar_loop]
    simp
  | cons c ids ih =>
    intro ordens F cont
    rw [refinar_loop]
    have htot := refinar_comunidade_total fuelLM (ordens 0) G P c F cont
      hnd hend hw hfuel
    rcases hrc : refinar_comunidade fuelLM (ordens 0) G P c F cont with - | Fc
    · rw [hrc] at htot
      simp at htot
    · simp only [hrc]
      rcases Fc with ⟨F1, cont1⟩
      exact ih (fun j => ordens (j + 1)) F1 cont1

theorem refinar_particao_total (fuelLM : ℕ) (ordens : ℕ → ℕ → List ℕ)
    (G : Grafo) (P : Particao)
    (hnd : (pkeys P).Nodup)
    (hend : ∀ e ∈ G.edges, e.1 ∈ pkeys P ∧ e.2.1 ∈ pkeys P)
    (hw : ∀ e ∈ G.edges, 0 ≤ e.2.2)
    (hfuel : P.length ^ P.length < fuelLM) :
    (refinar_particao fuelLM ordens G P).isSome = true := by
  simp only [refinar_particao]
  have htot := refinar_loop_total fuelLM G P hnd hend hw hfuel
    ((pvalues P).dedup) ordens P
    (if P = [] then 0 else (pvalues P).foldr max 0 + 1)
  rcases hrl : refinar_loop fuelLM G P ((pvalues P).dedup) ordens P
      (if P = [] then 0 else (pvalues P).foldr max 0 + 1) with - | Fc
  · rw [hrl] at htot
    simp at htot
  · simp only [hrl]
    rcases Fc with ⟨F, cont⟩
    simp

theorem calcular_modularidade_isSome (G : Grafo) (P : Particao)
    (h : ∀ k ∈ pkeys P, k ∈ G.nodes) :
    (calcular_modularidade G P).isSome = true := by
  rw [calcular_modularidade]
  by_cases hm : peso_total G = 0
  · rw [if_pos hm]
    simp
  · rw [if_neg hm,
      if_pos (List.all_eq_true.2 (fun k hk => decide_eq_true (h k hk)))]
    simp

theorem pkeys_mapear_sub {mapa part : Particao} {k : ℕ}
    (hk : k ∈ pkeys (mapear_particao mapa part)) : k ∈ pkeys mapa := by
  rw [pkeys] at hk ⊢
  rcases List.mem_map.1 hk with ⟨e, he, rfl⟩
  rw [mapear_particao] at he
  rcases List.mem_filterMap.1 he with ⟨e0, he0, hmap⟩
  rcases hpl : plookup part e0.2 with - | c
  · rw [hpl] at hmap
    simp at hmap
  · rw [hpl, Option.map_some'] at hmap
    have he2 : (e0.1, c) = e := Option.some_inj.1 hmap
    rw [← he2]
    exact List.mem_map.2 ⟨e0, he0, rfl⟩

theorem leiden_loop_total {fuelLM : ℕ} {G_orig : Grafo} {N : ℕ}
    (hfl : N ^ N < fuelLM) :
    ∀ (fuel : ℕ) (ords : ℕ → ℕ → ℕ → List ℕ) (G : Grafo)
      (mapa melhor : Particao) (q : ℚ) (hist : List ℚ),
    GrafoBemFormado G → G.nodes.length < fuel → G.nodes.length ≤ N →
    (∀ k ∈ pkeys mapa, k ∈ G_orig.nodes) →
    (leiden_loop fuelLM G_orig fuel ords G mapa melhor q hist).isSome
      = true := by
  intro fuel
  induction fuel with
  | zero =>
    intro ords G mapa melhor q hist _ hflen _ _
    omega
  | succ fuel ih =>
    intro ords G mapa melhor q hist hWF hflen hN hmapa
    obtain ⟨hndG, hendG, hwG⟩ := hWF
    simp only [leiden_loop]
    have hk0 : pkeys (particao_singleton G) = G.nodes :=
      pkeys_particao_singleton G
    have hlen0 : (particao_singleton G).length = G.nodes.length := by
      have h0 := congrArg List.length hk0
      rwa [pkeys_length] at h0
    have hsuf1 := encontrar_sufficient G G fuelLM (ords 0 0)
      (particao_singleton G) (by rw [hk0]; exact hndG)
      (by rw [hk0]; exact hendG) hwG
      (by rw [hlen0]; exact lt_of_le_of_lt (pow_self_mono hN) hfl)
    rcases henc : encontrar_movimentacao_local fuelLM (ords 0 0) G G
        (particao_singleton G) with - | p1
    · rw [henc] at hsuf1
      simp at hsuf1
    · simp only [henc]
      have hkp1 : pkeys p1 = G.nodes := by
        rw [pkeys_encontrar henc, hk0]
      have hlenp1 : p1.length = G.nodes.length := by
        have h0 := congrArg List.length hkp1
        rwa [pkeys_length] at h0
      have hrp := refinar_particao_total fuelLM (fun j => ords 0 (j + 1)) G p1
        (by rw [hkp1]; exact hndG) (by rw [hkp1]; exact hendG) hwG
        (by rw [hlenp1]; exact lt_of_le_of_lt (pow_self_mono hN) hfl)
      rcases href : refinar_particao fuelLM (fun j => ords 0 (j + 1)) G p1
          with - | p2
      · rw [href] at hrp
        simp at hrp
      · simp only [href]
        have hkp2 : pkeys p2 = G.nodes := by
          rw [pkeys_refinar_particao href, hkp1]
        have hmod := calcular_modularidade_isSome G_orig
          (mapear_particao mapa p2)
          (fun k hk => hmapa k (pkeys_mapear_sub hk))
        rcases hq : calcular_modularidade G_orig (mapear_particao mapa p2)
            with - | q'
        · rw [hq] at hmod
          simp at hmod
        · simp only [hq]
          by_cases hle : q' ≤ q
          · rw [if_pos hle]
            simp
          · rw [if_neg hle]
            by_cases hsz : (agrupar_grafo G p2).nodes.length = G.nodes.length
            · rw [if_pos hsz]
              simp
            · rw [if_neg hsz]
              have hWF2 : GrafoBemFormado (agrupar_grafo G p2) :=
                agrupar_grafo_bem_formado G p2 ⟨hndG, hendG, hwG⟩ hkp2
              have hlenp2 : p2.length = G.nodes.length := by
                have h0 := congrArg List.length hkp2
                rwa [pkeys_length] at h0
              have hsub : (agrupar_grafo G p2).nodes.length ≤
                  G.nodes.length := by
                show ((pvalues p2).dedup).length ≤ G.nodes.length
                calc ((pvalues p2).dedup).length
                    ≤ (pvalues p2).length := (List.dedup_sublist _).length_le
                  _ = p2.length := pvalues_length p2
                  _ = G.nodes.length := hlenp2
              have hdec : (agrupar_grafo G p2).nodes.length <
                  G.nodes.length := lt_of_le_of_ne hsub hsz
              exact ih (fun l => ords (l + 1)) (agrupar_grafo G p2)
                (mapear_particao mapa p2) (mapear_particao mapa p2) q'
                (hist ++ [q']) hWF2 (by omega) (by omega)
                (fun k hk => hmapa k (pkeys_mapear_sub hk))

theorem louvain_loop_total {fuelLM : ℕ} {G_orig : Grafo} {N : ℕ}
    (hfl : N ^ N < fuelLM) :
    ∀ (fuel : ℕ) (ords : ℕ → ℕ → List ℕ) (G : Grafo)
      (mapa melhor : Particao) (q : ℚ) (hist : List ℚ),
    GrafoBemFormado G → G.nodes.length < fuel → G.nodes.length ≤ N →
    (∀ k ∈ pkeys mapa, k ∈ G_orig.nodes) →
    (louvain_loop fuelLM G_orig fuel ords G mapa melhor q hist).isSome
      = true := by
  intro fuel
  induction fuel with
  | zero =>
    intro ords G mapa melhor q hist _ hflen _ _
    omega
  | succ fuel ih =>
    intro ords G mapa melhor q hist hWF hflen hN hmapa
    obtain ⟨hndG, hendG, hwG⟩ := hWF
    simp only [louvain_loop]
    have hk0 : pkeys (particao_singleton G) = G.nodes :=
      pkeys_particao_singleton G
    have hlen0 : (particao_singleton G).length = G.nodes.length := by
      have h0 := congrArg List.length hk0
      rwa [pkeys_length] at h0
    have hsuf1 := encontrar_sufficient G G fuelLM (ords 0)
      (particao_singleton G) (by rw [hk0]; exact hndG)
      (by rw [hk0]; exact hendG) hwG
      (by rw [hlen0]; exact lt_of_le_of_lt (pow_self_mono hN) hfl)
    rcases henc : encontrar_movimentacao_local fuelLM (ords 0) G G
        (particao_singleton G) with - | p1
    · rw [henc] at hsuf1
      simp at hsuf1
    · simp only [henc]
      have hkp1 : pkeys p1 = G.nodes := by
        rw [pkeys_encontrar henc, hk0]
      have hlenp1 : p1.length = G.nodes.length := by
        have h0 := congrArg List.length hkp1
        rwa [pkeys_length] at h0
      have hmod := calcular_modularidade_isSome G_orig
        (mapear_particao mapa p1)
        (fun k hk => hmapa k (pkeys_mapear_sub hk))
      rcases hq : calcular_modularidade G_orig (mapear_particao mapa p1)
          with - | q'
      · rw [hq] at hmod
        simp at hmod
      · simp only [hq]
        by_cases hle : q' ≤ q
        · rw [if_pos hle]
          simp
        · rw [if_neg hle]
          by_cases hsz : (agrupar_grafo G p1).nodes.length = G.nodes.length
          · rw [if_pos hsz]
            simp
          · rw [if_neg hsz]
            have hWF2 : GrafoBemFormado (agrupar_grafo G p1) :=
              agrupar_grafo_bem_formado G p1 ⟨hndG, hendG, hwG⟩ hkp1
            have hsub : (agrupar_grafo G p1).nodes.length ≤
                G.nodes.length := by
              show ((pvalues p1).dedup).length ≤ G.nodes.length
              calc ((pvalues p1).dedup).length
                  ≤ (pvalues p1).length := (List.dedup_sublist _).length_le
                _ = p1.length := pvalues_length p1
                _ = G.nodes.length := hlenp1
            have hdec : (agrupar_grafo G p1).nodes.length <
                G.nodes.length := lt_of_le_of_ne hsub hsz
            exact ih (fun l => ords (l + 1)) (agrupar_grafo G p1)
              (mapear_particao mapa p1) (mapear_particao mapa p1) q'
              (hist ++ [q']) hWF2 (by omega) (by omega)
              (fun k hk => hmapa k (pkeys_mapear_sub hk))

/-- C5.  The modularity history returned by `leiden` and by `louvain`
is strictly increasing from one entry to the next, and is a finite
sequence: its length is bounded by the input graph's node count plus
one, because every accepted level after the first strictly shrinks the
working graph.  Moreover the multilevel loop genuinely terminates on
every well-formed finite input graph: with the outer level budget set
to the node count plus one and any inner sweep budget exceeding
`n ^ n` (an upper bound on the number of strictly-modularity-improving
sweeps, since each improving sweep strictly increases the partition's
modularity over a state space of at most `n ^ n` assignments), both
algorithms return a result for every choice of shuffle orders. -/
theorem c5_historico_monotono :
    (∀ (fo fl : ℕ) (ords : ℕ → ℕ → ℕ → List ℕ) (G : Grafo)
       (p : Particao) (h : List ℚ),
       leiden fo fl ords G = some (p, h) →
       h.Chain' (· < ·) ∧ h.length ≤ G.nodes.length + 1) ∧
    (∀ (fo fl : ℕ) (ords : ℕ → ℕ → List ℕ) (G : Grafo)
       (p : Particao) (h : List ℚ),
       louvain fo fl ords G = some (p, h) →
       h.Chain' (· < ·) ∧ h.length ≤ G.nodes.length + 1) ∧
    (∀ (G : Grafo), GrafoBemFormado G →
       ∀ (fl : ℕ), G.nodes.length ^ G.nodes.length < fl →
       ∀ (ords : ℕ → ℕ → ℕ → List ℕ),
       (leiden (G.nodes.length + 1) fl ords G).isSome = true) ∧
    (∀ (G : Grafo), GrafoBemFormado G →
       ∀ (fl : ℕ), G.nodes.length ^ G.nodes.length < fl →
       ∀ (ords : ℕ → ℕ → List ℕ),
       (louvain (G.nodes.length + 1) fl ords G).isSome = true) := by
  refine ⟨?_, ?_, ?_, ?_⟩
  · intro fo fl ords G p h hrun
    have := leiden_loop_hist fo ords G (particao_singleton G)
      (particao_singleton G) (-1) [] p h List.chain'_nil
      (fun x hx => absurd hx (List.not_mem_nil x)) hrun
    simpa using this
  · intro fo fl ords G p h hrun
    have := louvain_loop_hist fo ords G (particao_singleton G)
      (particao_singleton G) (-1) [] p h List.chain'_nil
      (fun x hx => absurd hx (List.not_mem_nil x)) hrun
    simpa using this
  · intro G hWF fl hfl ords
    rw [leiden]
    exact leiden_loop_total hfl (G.nodes.length + 1) ords G
      (particao_singleton G) (particao_singleton G) (-1) [] hWF
      (by omega) (le_refl _)
      (fun k hk => by rwa [pkeys_particao_singleton] at hk)
  · intro G hWF fl hfl ords
    rw [louvain]
    exact louvain_loop_total hfl (G.nodes.length + 1) ords G
      (particao_singleton G) (particao_singleton G) (-1) [] hWF
      (by omega) (le_refl _)
      (fun k hk => by rwa [pkeys_particao_singleton] at hk)

/-- Witness for C5: the histories of the concrete `leiden` and
`louvain` runs on the two-disjoint-edges graph are `[1/2]`, strictly
increasing and of length at most five; and with outer budget 5 and
inner budget 257 > 4 ^ 4 both algorithms terminate on that graph. -/
theorem c5_witness :
    (([(1 : ℚ)/2].Chain' (· < ·) ∧
        [(1 : ℚ)/2].length ≤ exemplo_duplo.nodes.length + 1) ∧
      leiden 5 5 (fun _ _ _ => [0, 1, 2, 3]) exemplo_duplo =
        some ([(0, 1), (1, 1), (2, 3), (3, 3)], [1/2])) ∧
    (leiden (exemplo_duplo.nodes.length + 1) 257
        (fun _ _ _ => [0, 1, 2, 3]) exemplo_duplo).isSome = true ∧
    (louvain (exemplo_duplo.nodes.length + 1) 257
        (fun _ _ => [0, 1, 2, 3]) exemplo_duplo).isSome = true :=
  ⟨⟨c5_historico_monotono.1 5 5 (fun _ _ _ => [0, 1, 2, 3]) exemplo_duplo
      [(0, 1), (1, 1), (2, 3), (3, 3)] [1/2] (by decide), by decide⟩,
   c5_historico_monotono.2.2.1 exemplo_duplo
     (by unfold GrafoBemFormado; decide) 257 (by decide)
     (fun _ _ _ => [0, 1, 2, 3]),
   c5_historico_monotono.2.2.2 exemplo_duplo
     (by unfold GrafoBemFormado; decide) 257 (by decide)
     (fun _ _ => [0, 1, 2, 3])⟩



end ConcreteEvaluation
